import Mathlib

/-!
# Shuttle master: resource manager

A shallow embedding of `src/master/resource_manager.cc` of delkyd/shuttle:
the slot allocator `IdManager` and the split planner `ResourceManager`.

Conventions of the embedding.

* The pool `resource_pool_` (a `std::vector<IdItem*>` whose element `k` is
  allocated once by the constructor and never moved) is a `List IdItem`; a
  pointer to the pool's `k`-th item is the position `k`. The deque
  `pending_res_` of such pointers is a `List Nat`, head = `front()`.
* Every operation returns `Except Fault _`: `Fault` is raised exactly where the
  C++ has undefined behaviour (`operator[]` beyond the end of a vector, a
  dereferenced null pointer, a division by zero, an overflow of signed
  arithmetic).
* Signed arithmetic in `int` and `int64_t` goes through `checkedInt32` and
  `checkedInt64`, which fault when the exact result does not fit. A conversion
  to a narrower or differently signed type is not an overflow: its value is
  given by `wrapInt32` and `toSizeT`. `wrapInt64` is the two's complement
  value of an `int64_t` expression; it serves to state that a computation does
  not wrap.
-/

namespace Shuttle

/-! ## Machine integers -/

/-- Value of `static_cast<size_t>(x)` on a 64-bit target. -/
def toSizeT (x : Int) : Nat := (x % 2 ^ 64).toNat

/-- Value of a conversion to a two's complement 32-bit `int`, which keeps the
low 32 bits. -/
def wrapInt32 (x : Int) : Int := (x + 2 ^ 31) % 2 ^ 32 - 2 ^ 31

/-- The low 64 bits of an exact value, read as a two's complement `int64_t`. -/
def wrapInt64 (x : Int) : Int := (x + 2 ^ 63) % 2 ^ 64 - 2 ^ 63

/-- Points at which the C++ code leaves defined behaviour. -/
inductive Fault where
  | outOfBounds
  | nullDeref
  | divByZero
  | signedOverflow
  deriving DecidableEq, Repr

/-- Signed arithmetic in `int` with exact result `x`: the result when it fits 32
bits, a fault (signed overflow) when it does not. -/
def checkedInt32 (x : Int) : Except Fault Int :=
  if -2 ^ 31 ≤ x ∧ x < 2 ^ 31 then .ok x else .error .signedOverflow

/-- Signed arithmetic in `int64_t` with exact result `x`: the result when it
fits 64 bits, a fault (signed overflow) when it does not. -/
def checkedInt64 (x : Int) : Except Fault Int :=
  if -2 ^ 63 ≤ x ∧ x < 2 ^ 63 then .ok x else .error .signedOverflow

/-! ## Data model -/

/-- Modelled from the spec: the enum `ResourceStatus` of `resource_manager.h`
(not among the sources); the three states the code names `kResPending`,
`kResAllocated`, `kResDone`. -/
inductive ResourceStatus where
  | kResPending
  | kResAllocated
  | kResDone
  deriving DecidableEq, Repr

open ResourceStatus

/-- Modelled from the spec: the struct `IdItem` of `resource_manager.h` (not
among the sources), with the three fields the code uses. The spec's data model
gives `attemptCount` as an integer `≥ 0`, taken here as a natural number. -/
structure IdItem where
  no : Int
  attempt : Nat
  status : ResourceStatus
  deriving DecidableEq, Repr

/-- The members of `class IdManager`: the pool and the pending deque. -/
structure IdManager where
  resource_pool_ : List IdItem
  pending_res_ : List Nat
  deriving DecidableEq, Repr

namespace IdManager

/-- The loop of `IdManager::IdManager(int n)`: `k` further iterations starting
at `i`. -/
def ctorLoop : Nat → Int → IdManager → IdManager
  | 0, _, m => m
  | k + 1, i, m =>
    ctorLoop k (i + 1)
      { resource_pool_ := m.resource_pool_ ++ [{ no := i, attempt := 0, status := kResPending }]
        pending_res_ := m.pending_res_ ++ [m.resource_pool_.length] }

/-- `IdManager::IdManager(int n)`: the loop `for (i = 0; i < n; ++i)` runs
`n.toNat` times. -/
def new (n : Int) : IdManager :=
  ctorLoop n.toNat 0 { resource_pool_ := [], pending_res_ := [] }

/-- `IdManager::GetItem`. -/
def GetItem (m : IdManager) : Except Fault (Option IdItem × IdManager) :=
  match m.pending_res_ with
  | [] => .ok (none, m)
  | p :: rest =>
    match m.resource_pool_[p]? with
    | none => .error .outOfBounds
    | some cur =>
      let cur' : IdItem := { cur with attempt := cur.attempt + 1, status := kResAllocated }
      .ok (some cur', { resource_pool_ := m.resource_pool_.set p cur', pending_res_ := rest })

/-- `IdManager::GetCertainItem`. -/
def GetCertainItem (m : IdManager) (no : Int) : Except Fault (Option IdItem × IdManager) :=
  let n := toSizeT no
  if n > m.resource_pool_.length then .ok (none, m)
  else
    match m.resource_pool_[n]? with
    | none => .error .outOfBounds
    | some cur =>
      if cur.status = kResAllocated then
        let cur' : IdItem := { cur with attempt := cur.attempt + 1 }
        .ok (some cur', { m with resource_pool_ := m.resource_pool_.set n cur' })
      else .ok (none, m)

/-- `IdManager::ReturnBackItem`: the range test only logs, the pool is read
whatever its outcome. -/
def ReturnBackItem (m : IdManager) (no : Int) : Except Fault IdManager :=
  let n := toSizeT no
  match m.resource_pool_[n]? with
  | none => .error .outOfBounds
  | some cur =>
    if cur.status = kResAllocated then
      .ok { resource_pool_ := m.resource_pool_.set n { cur with status := kResPending }
            pending_res_ := n :: m.pending_res_ }
    else .ok m

/-- `IdManager::FinishItem`. -/
def FinishItem (m : IdManager) (no : Int) : Except Fault (Bool × IdManager) :=
  let n := toSizeT no
  if n > m.resource_pool_.length then .ok (false, m)
  else
    match m.resource_pool_[n]? with
    | none => .error .outOfBounds
    | some cur =>
      if cur.status = kResAllocated then
        .ok (true, { m with resource_pool_ := m.resource_pool_.set n { cur with status := kResDone } })
      else .ok (false, m)

/-- `IdManager::CheckCertainItem`: the result is the pool position the returned
pointer refers to (`none` for `NULL`). -/
def CheckCertainItem (m : IdManager) (no : Int) : Except Fault (Option Nat × IdManager) :=
  let n := toSizeT no
  if n > m.resource_pool_.length then .ok (none, m)
  else
    match m.resource_pool_[n]? with
    | none => .error .outOfBounds
    | some _ => .ok (some n, m)

/-- The calls a client can make on an `IdManager`. -/
inductive Call where
  | getItem
  | getCertainItem (no : Int)
  | returnBackItem (no : Int)
  | finishItem (no : Int)
  | checkCertainItem (no : Int)
  deriving DecidableEq, Repr

/-- What a call hands back. -/
inductive Reply where
  | item (r : Option IdItem)
  | done
  | flag (b : Bool)
  | ptr (p : Option Nat)
  deriving DecidableEq, Repr

/-- One call on the allocator. -/
def step (m : IdManager) : Call → Except Fault (Reply × IdManager)
  | .getItem => (m.GetItem).map fun r => (.item r.1, r.2)
  | .getCertainItem no => (m.GetCertainItem no).map fun r => (.item r.1, r.2)
  | .returnBackItem no => (m.ReturnBackItem no).map fun m' => (.done, m')
  | .finishItem no => (m.FinishItem no).map fun r => (.flag r.1, r.2)
  | .checkCertainItem no => (m.CheckCertainItem no).map fun r => (.ptr r.1, r.2)

/-- States the allocator built by `IdManager(n)` can be in after a finite
sequence of calls, none of which left defined behaviour. -/
inductive Reachable (n : Int) : IdManager → Prop where
  | ctor : Reachable n (IdManager.new n)
  | call {m m' : IdManager} {c : Call} {r : Reply} :
      Reachable n m → m.step c = .ok (r, m') → Reachable n m'

/-- `k` consecutive `GetItem` calls; the replies in call order and the final state. -/
def getItems : Nat → IdManager → Except Fault (List (Option IdItem) × IdManager)
  | 0, m => .ok ([], m)
  | k + 1, m =>
    match m.GetItem with
    | .error e => .error e
    | .ok (r, m') =>
      match getItems k m' with
      | .error e => .error e
      | .ok (rs, m'') => .ok (r :: rs, m'')

end IdManager

/-! ## The split planner -/

/-- Modelled from the spec: the record `FileInfo` of the file-system interface
(not among the sources), reduced to the two fields the constructor reads: the
source's name and its total length in bytes. -/
structure FileInfo where
  name : String
  size : Int
  deriving DecidableEq, Repr

/-- Modelled from the spec: the struct `ResourceItem` of `resource_manager.h`
(not among the sources), with the five fields the code uses. -/
structure ResourceItem where
  no : Int
  attempt : Nat
  input_file : String
  offset : Int
  size : Int
  deriving DecidableEq, Repr

/-- The members of `class ResourceManager` the allocation logic uses. -/
structure ResourceManager where
  resource_pool_ : List ResourceItem
  manager_ : IdManager
  deriving DecidableEq, Repr

namespace ResourceManager

/-- The inner loop `for (int i = 0; i < blocks; ++i)` of the constructor: `k`
further iterations with loop variable `i`, running `counter` and pool `pool`.
`counter++` (line 135) is `int` arithmetic and `i * block_size` (line 138) is
`int64_t` arithmetic; `++i` cannot overflow since `i < blocks`. -/
def fullBlocks (name : String) (block_size : Int) :
    Nat → Int → Int → List ResourceItem → Except Fault (List ResourceItem × Int)
  | 0, _, counter, pool => .ok (pool, counter)
  | k + 1, i, counter, pool =>
    match checkedInt32 (counter + 1) with
    | .error e => .error e
    | .ok counter' =>
      match checkedInt64 (i * block_size) with
      | .error e => .error e
      | .ok offset =>
        fullBlocks name block_size k (i + 1) counter'
          (pool ++ [{ no := counter, attempt := 0, input_file := name,
                      offset := offset, size := block_size }])

/-- The body of the constructor's loop over `files` for one file `f`
(lines 132 to 149). The quotient, the product `blocks * block_size` and the
difference are `int64_t` arithmetic and `counter++` is `int` arithmetic; the
initialisations of `int blocks` and `int rest` from an `int64_t` are
conversions. -/
def splitFile (block_size : Int) (f : FileInfo) (counter : Int) (pool : List ResourceItem) :
    Except Fault (List ResourceItem × Int) :=
  if block_size = 0 then .error .divByZero
  else
    match checkedInt64 (Int.tdiv f.size block_size) with
    | .error e => .error e
    | .ok quotient =>
      let blocks := wrapInt32 quotient
      match fullBlocks f.name block_size blocks.toNat 0 counter pool with
      | .error e => .error e
      | .ok (pool1, counter1) =>
        match checkedInt64 (blocks * block_size) with
        | .error e => .error e
        | .ok whole =>
          match checkedInt64 (f.size - whole) with
          | .error e => .error e
          | .ok remainder =>
            let rest := wrapInt32 remainder
            match checkedInt32 (counter1 + 1) with
            | .error e => .error e
            | .ok counter2 =>
              .ok (pool1 ++ [{ no := counter1, attempt := 0, input_file := f.name,
                               offset := whole, size := rest }],
                   counter2)

/-- The constructor's loop over `files`. -/
def splitFiles (block_size : Int) :
    List FileInfo → Int → List ResourceItem → Except Fault (List ResourceItem × Int)
  | [], counter, pool => .ok (pool, counter)
  | f :: fs, counter, pool =>
    match splitFile block_size f counter pool with
    | .error e => .error e
    | .ok (pool', counter') => splitFiles block_size fs counter' pool'

/-- `ResourceManager::ResourceManager` from line 127 on: `files` is what the
file system listed, `block_size` the value of `FLAGS_input_block_size`. -/
def new (files : List FileInfo) (block_size : Int) : Except Fault ResourceManager :=
  let counter := wrapInt32 (([] : List ResourceItem).length)
  match splitFiles block_size files counter [] with
  | .error e => .error e
  | .ok (pool, _) =>
    .ok { resource_pool_ := pool, manager_ := IdManager.new (wrapInt32 pool.length) }

/-- `ResourceManager::GetItem`. -/
def GetItem (r : ResourceManager) : Except Fault (Option ResourceItem × ResourceManager) :=
  match r.manager_.GetItem with
  | .error e => .error e
  | .ok (none, m') => .ok (none, { r with manager_ := m' })
  | .ok (some item, m') =>
    match r.resource_pool_[toSizeT item.no]? with
    | none => .error .outOfBounds
    | some resource =>
      let resource' : ResourceItem := { resource with attempt := item.attempt }
      .ok (some resource',
        { resource_pool_ := r.resource_pool_.set (toSizeT item.no) resource', manager_ := m' })

/-- `ResourceManager::GetCertainItem`. -/
def GetCertainItem (r : ResourceManager) (no : Int) :
    Except Fault (Option ResourceItem × ResourceManager) :=
  match r.manager_.GetCertainItem no with
  | .error e => .error e
  | .ok (none, m') => .ok (none, { r with manager_ := m' })
  | .ok (some item, m') =>
    match r.resource_pool_[toSizeT no]? with
    | none => .error .outOfBounds
    | some resource =>
      let resource' : ResourceItem := { resource with attempt := item.attempt }
      .ok (some resource',
        { resource_pool_ := r.resource_pool_.set (toSizeT no) resource', manager_ := m' })

/-- `ResourceManager::ReturnBackItem`. -/
def ReturnBackItem (r : ResourceManager) (no : Int) : Except Fault ResourceManager :=
  match r.manager_.ReturnBackItem no with
  | .error e => .error e
  | .ok m' => .ok { r with manager_ := m' }

/-- `ResourceManager::FinishItem`. -/
def FinishItem (r : ResourceManager) (no : Int) : Except Fault (Bool × ResourceManager) :=
  match r.manager_.FinishItem no with
  | .error e => .error e
  | .ok (b, m') => .ok (b, { r with manager_ := m' })

/-- `ResourceManager::CheckCertainItem`: the allocator's pointer is dereferenced
without a null test; the result is the position in the planner's pool the
returned pointer refers to. -/
def CheckCertainItem (r : ResourceManager) (no : Int) : Except Fault (Nat × ResourceManager) :=
  match r.manager_.CheckCertainItem no with
  | .error e => .error e
  | .ok (none, _) => .error .nullDeref
  | .ok (some p, m') =>
    match m'.resource_pool_[p]? with
    | none => .error .outOfBounds
    | some item =>
      match r.resource_pool_[toSizeT item.no]? with
      | none => .error .outOfBounds
      | some _ => .ok (toSizeT item.no, { r with manager_ := m' })

/-- What a call on the planner hands back. -/
inductive Reply where
  | item (u : Option ResourceItem)
  | done
  | flag (b : Bool)
  | ptr (p : Nat)
  deriving DecidableEq, Repr

/-- One call on the planner. -/
def step (r : ResourceManager) : IdManager.Call → Except Fault (Reply × ResourceManager)
  | .getItem => (r.GetItem).map fun x => (.item x.1, x.2)
  | .getCertainItem no => (r.GetCertainItem no).map fun x => (.item x.1, x.2)
  | .returnBackItem no => (r.ReturnBackItem no).map fun r' => (.done, r')
  | .finishItem no => (r.FinishItem no).map fun x => (.flag x.1, x.2)
  | .checkCertainItem no => (r.CheckCertainItem no).map fun x => (.ptr x.1, x.2)

/-- States a planner that started as `r0` can be in after a finite sequence of
calls, none of which left defined behaviour. -/
inductive Reachable (r0 : ResourceManager) : ResourceManager → Prop where
  | start : Reachable r0 r0
  | call {r r' : ResourceManager} {c : IdManager.Call} {x : Reply} :
      Reachable r0 r → r.step c = .ok (x, r') → Reachable r0 r'

/-- The split metadata of a unit: source file, byte offset, byte length. -/
def static (u : ResourceItem) : String × Int × Int := (u.input_file, u.offset, u.size)

end ResourceManager

/-! ## Auxiliary definitions for the proofs -/

namespace IdManager

/-- A slot as the constructor creates it. -/
def fresh (i : Int) : IdItem := { no := i, attempt := 0, status := kResPending }

/-- The effect of `GetItem` on the slot it hands out. -/
def acquired (c : IdItem) : IdItem :=
  { c with attempt := c.attempt + 1, status := kResAllocated }

/-- The representation invariant of an allocator with `N` slots: the pool has
`N` slots, the slot at position `k` carries index `k`, and the pending deque
lists exactly the positions of the Pending slots, each once. -/
structure Inv (N : Nat) (m : IdManager) : Prop where
  len : m.resource_pool_.length = N
  no_eq : ∀ (k : Nat) (c : IdItem), m.resource_pool_[k]? = some c → c.no = (k : Int)
  pending_iff : ∀ (k : Nat) (c : IdItem), m.resource_pool_[k]? = some c →
    (c.status = kResPending ↔ k ∈ m.pending_res_)
  pending_lt : ∀ p ∈ m.pending_res_, p < N
  nodup : m.pending_res_.Nodup

end IdManager

namespace IdManager

/-- The allocator `IdManager(3)` after one `GetItem`: slot 0 is Allocated. -/
def afterOne : IdManager :=
  ⟨[⟨0, 1, kResAllocated⟩, ⟨1, 0, kResPending⟩, ⟨2, 0, kResPending⟩], [1, 2]⟩

/-- The allocator `IdManager(3)` after two `GetItem` calls: slots 0 and 1 are
Allocated. -/
def afterTwo : IdManager :=
  ⟨[⟨0, 1, kResAllocated⟩, ⟨1, 1, kResAllocated⟩, ⟨2, 0, kResPending⟩], [2]⟩

end IdManager

namespace ResourceManager

/-- The numbering the constructor's loops maintain: `counter` is the pool's
size as an `int`, and the unit at position `k` carries the index `k` (as an
`int`) and attempt 0. -/
def CtorInv (pool : List ResourceItem) (counter : Int) : Prop :=
  counter = wrapInt32 pool.length ∧
    ∀ (k : Nat) (u : ResourceItem), pool[k]? = some u → u.no = wrapInt32 k ∧ u.attempt = 0

/-- The index and the split metadata of a unit: what no call may change. -/
def frozen (u : ResourceItem) : Int × String × Int × Int := (u.no, static u)

/-- The representation invariant of a planner that started as `r0`: indices and
split metadata are those of `r0`, which are numbered by position; the allocator
is well formed with as many slots as the constructor asked for; and the
planner's copy of each slot's attempt count equals the allocator's. -/
structure PInv (r0 r : ResourceManager) : Prop where
  same : r.resource_pool_.map frozen = r0.resource_pool_.map frozen
  numbered : ∀ (k : Nat) (u : ResourceItem), r0.resource_pool_[k]? = some u → u.no = wrapInt32 k
  alloc : IdManager.Inv (wrapInt32 r0.resource_pool_.length).toNat r.manager_
  sync : ∀ (k : Nat), k < r.manager_.resource_pool_.length →
    (r.resource_pool_[k]?).map (fun u => u.attempt) =
      (r.manager_.resource_pool_[k]?).map (fun c => c.attempt)

end ResourceManager

namespace ResourceManager

/-- The planner built for one source `a` of 250 bytes with block size 100. -/
def planA : ResourceManager :=
  { resource_pool_ := [⟨0, 0, "a", 0, 100⟩, ⟨1, 0, "a", 100, 100⟩, ⟨2, 0, "a", 200, 50⟩]
    manager_ := IdManager.new 3 }

/-- The planner `planA` after one `GetItem`. -/
def planA1 : ResourceManager :=
  { resource_pool_ := [⟨0, 1, "a", 0, 100⟩, ⟨1, 0, "a", 100, 100⟩, ⟨2, 0, "a", 200, 50⟩]
    manager_ := IdManager.afterOne }

end ResourceManager

/-! ## The split law as the specification words it -/

/-- The split of one source as the specification words it (section 4.2):
`floor(L/B)` full units of exactly `B` bytes at offsets `0, B, 2B, …`, then one
trailing unit covering the remaining `L − floor(L/B)·B` bytes; the units are
numbered from `start` on and carry the source's name. -/
def specSplit (B : Int) (start : Nat) (f : FileInfo) : List ResourceItem :=
  (List.range (f.size / B).toNat).map
      (fun k : Nat => ⟨((start + k : Nat) : Int), 0, f.name, (k : Int) * B, B⟩) ++
    [⟨((start + (f.size / B).toNat : Nat) : Int), 0, f.name, f.size / B * B,
      f.size - f.size / B * B⟩]

/-- The number of units the specification gives one source: `floor(L/B) + 1`. -/
def specUnits (B : Int) (f : FileInfo) : Nat := (f.size / B).toNat + 1

/-- The unit list as the specification words it: the per-source splits in
listing order, numbered by one counter that is not reset between sources. -/
def specPlan (B : Int) : Nat → List FileInfo → List ResourceItem
  | _, [] => []
  | start, f :: fs => specSplit B start f ++ specPlan B (start + specUnits B f) fs

/-- The total unit count of the specification: the sum of `floor(L_j/B) + 1`. -/
def specCount (B : Int) (files : List FileInfo) : Nat := (files.map (specUnits B)).sum

/-! ## Histories of the allocator -/

namespace IdManager

/-- The state `m'` is reached from `m` by a finite sequence of further calls,
none of which left defined behaviour. -/
inductive Evolves (m : IdManager) : IdManager → Prop where
  | refl : Evolves m m
  | call {m' m'' : IdManager} {c : Call} {r : Reply} :
      Evolves m m' → m'.step c = .ok (r, m'') → Evolves m m''

/-- Whether a reply hands out slot `i`: 1 for a snapshot with index `i` (the
result of a successful `GetItem` or `GetCertainItem`), 0 for every other reply. -/
def gained (i : Nat) : Reply → Nat
  | .item (some it) => if it.no = (i : Int) then 1 else 0
  | _ => 0

/-- A history of the allocator built by `IdManager(n)`: the calls made so far
with their replies, the latest first, and the state they led to. -/
inductive Run (n : Int) : List (Call × Reply) → IdManager → Prop where
  | ctor : Run n [] (IdManager.new n)
  | call {tr : List (Call × Reply)} {m m' : IdManager} {c : Call} {r : Reply} :
      Run n tr m → m.step c = .ok (r, m') → Run n ((c, r) :: tr) m'

/-- The number of successful `GetItem` / `GetCertainItem` results for slot `i`
in a history. -/
def acquisitions (i : Nat) (tr : List (Call × Reply)) : Nat :=
  (tr.map fun e => gained i e.2).sum

/-- The attempt count of the slot at position `i`, if there is one. -/
def attemptOf (m : IdManager) (i : Nat) : Option Nat :=
  (m.resource_pool_[i]?).map fun c => c.attempt

/-- The allocator `IdManager(3)` after `GetItem`, `GetItem`,
`ReturnBackItem(0)`. -/
def afterReturn : IdManager :=
  ⟨[⟨0, 1, kResPending⟩, ⟨1, 1, kResAllocated⟩, ⟨2, 0, kResPending⟩], [0, 2]⟩

/-- The allocator `IdManager(3)` after `GetItem`, `GetItem`,
`ReturnBackItem(0)`, `GetItem`. -/
def afterRetry : IdManager :=
  ⟨[⟨0, 2, kResAllocated⟩, ⟨1, 1, kResAllocated⟩, ⟨2, 0, kResPending⟩], [2]⟩

/-- The allocator `IdManager(3)` after `GetItem`, `GetItem`,
`ReturnBackItem(0)`, `GetItem`, `GetItem`: every slot is Allocated. -/
def allAllocated : IdManager :=
  ⟨[⟨0, 2, kResAllocated⟩, ⟨1, 1, kResAllocated⟩, ⟨2, 1, kResAllocated⟩], []⟩

/-- The allocator `allAllocated` after `FinishItem(1)`. -/
def oneDone : IdManager :=
  ⟨[⟨0, 2, kResAllocated⟩, ⟨1, 1, kResDone⟩, ⟨2, 1, kResAllocated⟩], []⟩

end IdManager

/-! ## The result outlet (`src/minion/output/outlet.cc`)

A `std::string` is the list of its characters. The pool `output_pool_` (a
`std::vector<FormattedFile*>`) is a `List Bool`: `true` where a file is open,
`false` where the entry is `NULL`; the pointer to an open file is its position.
What the external `FormattedFile` does (whether `Create`, `Open` and
`WriteRecord` succeed) is passed to each call as `createOk`, `openOk`,
`writeOk`. -/

/-- Modelled from the spec: the class `ResultOutlet` is declared in `outlet.h`,
which is not among the sources; these are the members that `PrepareOutputFiles`,
`WriteToOutput` and `GetOutputFile` read and write. -/
structure ResultOutlet where
  output_pool_ : List Bool
  multiplex_ : Bool
  textoutput_ : Bool
  deriving DecidableEq, Repr

/-- One call of `fp->WriteRecord(key, value)`: the position of `fp` in the
pool and the two arguments. -/
structure Record where
  file : Nat
  key : List Char
  value : List Char
  deriving DecidableEq, Repr

/-- What `WriteToOutput` did: its return value, the `WriteRecord` call it made
(if it got that far) and the outlet afterwards. -/
structure WriteResult where
  ok : Bool
  record : Option Record
  outlet : ResultOutlet
  deriving DecidableEq, Repr

namespace ResultOutlet

/-- The value of `output_pool_.resize(n, NULL)`. -/
def resize (pool : List Bool) (n : Nat) : List Bool :=
  pool.take n ++ List.replicate (n - pool.length) false

/-- `ResultOutlet::PrepareOutputFiles`, with `FLAGS_format` as an argument. -/
def PrepareOutputFiles (o : ResultOutlet) (FLAGS_format : String) (createOk openOk : Bool) :
    Bool × ResultOutlet :=
  if FLAGS_format ≠ "multiple" then
    let o1 : ResultOutlet := { o with output_pool_ := resize o.output_pool_ 1 }
    if FLAGS_format = "text" ∨ FLAGS_format = "seq" then
      if !createOk then (false, o1)
      else if !openOk then (false, o1)
      else (true, { o1 with output_pool_ := o1.output_pool_.set 0 true, multiplex_ := false })
    else (false, o1)
  else (true, { o with output_pool_ := resize o.output_pool_ 26, multiplex_ := true })

/-- The part of `ResultOutlet::Collect` that sets the outlet up (lines 101 to
105): `PrepareOutputFiles()`, then `textoutput_ = FLAGS_format == "text"`;
`none` when `Collect` gives up. -/
def collectSetup (o : ResultOutlet) (FLAGS_format : String) (createOk openOk : Bool) :
    Option ResultOutlet :=
  match PrepareOutputFiles o FLAGS_format createOk openOk with
  | (false, _) => none
  | (true, o1) => some { o1 with textoutput_ := decide (FLAGS_format = "text") }

/-- `ResultOutlet::GetOutputFile`: `none` is `NULL`. -/
def GetOutputFile (o : ResultOutlet) (createOk openOk : Bool) (no : Int) :
    Except Fault (Option Nat × ResultOutlet) :=
  if toSizeT no > o.output_pool_.length then .ok (none, o)
  else
    match o.output_pool_[toSizeT no]? with
    | none => .error .outOfBounds
    | some true => .ok (some (toSizeT no), o)
    | some false =>
      if !createOk then .ok (none, o)
      else if !openOk then .ok (none, o)
      else .ok (some (toSizeT no), { o with output_pool_ := o.output_pool_.set (toSizeT no) true })

/-- The first half of `ResultOutlet::WriteToOutput` (lines 155 to 172): the
argument passed to `GetOutputFile` and `result_val` after the optional
`erase`. -/
def selectOutput (o : ResultOutlet) (value : List Char) : Int × List Char :=
  if o.multiplex_ then
    if value.length ≥ 2 then
      match value.getLast? with
      | none => (0, value)
      | some suffix =>
        if 'A'.toNat ≤ suffix.toNat ∧ suffix.toNat ≤ 'Z'.toNat then
          ((suffix.toNat : Int) - ('A'.toNat : Int), value.dropLast.dropLast)
        else (0, value)
    else (0, value)
  else (0, value)

/-- `ResultOutlet::WriteToOutput`. -/
def WriteToOutput (o : ResultOutlet) (createOk openOk writeOk : Bool) (key value : List Char) :
    Except Fault WriteResult :=
  let sel := selectOutput o value
  match GetOutputFile o createOk openOk sel.1 with
  | .error e => .error e
  | .ok (none, o1) => .ok { ok := false, record := none, outlet := o1 }
  | .ok (some fp, o1) =>
    let result_val := if !o.textoutput_ then key ++ [Char.ofNat 9] ++ sel.2 else sel.2
    .ok { ok := writeOk, record := some { file := fp, key := key, value := result_val },
          outlet := o1 }

/-- An outlet as `Collect` sets it up for the format `multiple`, starting from
an empty pool. -/
def multiple : ResultOutlet :=
  { output_pool_ := List.replicate 26 false, multiplex_ := true, textoutput_ := false }

/-- The outlets `Collect` works with when the format is `FLAGS_format`: the
one its set-up produces, from whatever outlet it starts with, and those reached
from it by calls of `WriteToOutput`. -/
inductive Collecting (FLAGS_format : String) : ResultOutlet → Prop where
  | setup {o0 o : ResultOutlet} {createOk openOk : Bool} :
      collectSetup o0 FLAGS_format createOk openOk = some o → Collecting FLAGS_format o
  | write {o : ResultOutlet} {createOk openOk writeOk : Bool} {key value : List Char}
      {res : WriteResult} :
      Collecting FLAGS_format o →
      o.WriteToOutput createOk openOk writeOk key value = .ok res →
      Collecting FLAGS_format res.outlet

end ResultOutlet

/-! # Theorems -/

/-! ## The allocator: construction and `GetItem` -/

namespace IdManager

theorem ctorLoop_eq (k : Nat) (i : Int) (m : IdManager) :
    ctorLoop k i m =
      { resource_pool_ := m.resource_pool_ ++ (List.range k).map (fun j : Nat => fresh (i + (j : Int)))
        pending_res_ := m.pending_res_ ++ List.range' m.resource_pool_.length k } := by
  induction k generalizing i m with
  | zero => simp [ctorLoop]
  | succ k ih =>
    rw [ctorLoop, ih]
    simp only [List.range_succ_eq_map, List.map_cons, List.map_map, List.append_assoc,
      List.singleton_append, List.length_append, List.length_singleton, List.range'_succ]
    congr 2
    · simp only [fresh, Nat.cast_zero, add_zero, List.cons.injEq, true_and]
      apply List.map_congr_left
      intro a _
      simp only [Function.comp, fresh, Nat.succ_eq_add_one, Nat.cast_add, Nat.cast_one]
      congr 1
      ring

theorem new_eq (N : Nat) :
    IdManager.new N =
      { resource_pool_ := (List.range N).map (fun j : Nat => fresh (j : Int)), pending_res_ := List.range N } := by
  simp [IdManager.new, ctorLoop_eq, List.range_eq_range']

theorem getItems_snoc {k : Nat} {m m' m'' : IdManager} {rs : List (Option IdItem)}
    {r : Option IdItem} (h : m.getItems k = .ok (rs, m')) (h' : m'.GetItem = .ok (r, m'')) :
    m.getItems (k + 1) = .ok (rs ++ [r], m'') := by
  induction k generalizing m rs with
  | zero =>
    simp only [getItems, Except.ok.injEq, Prod.mk.injEq] at h
    obtain ⟨rfl, rfl⟩ := h
    simp [getItems, h']
  | succ k ih =>
    rw [getItems] at h
    rw [getItems]
    cases hg : m.GetItem with
    | error e => simp [hg] at h
    | ok x =>
      obtain ⟨r1, m1⟩ := x
      simp only [hg] at h ⊢
      cases hk : m1.getItems k with
      | error e => simp [hk] at h
      | ok y =>
        obtain ⟨rs1, m2⟩ := y
        simp only [hk, Except.ok.injEq, Prod.mk.injEq] at h
        obtain ⟨rfl, rfl⟩ := h
        rw [ih hk]
        simp

theorem getItems_todo (todo pre : List IdItem) :
    getItems todo.length
        { resource_pool_ := pre ++ todo, pending_res_ := List.range' pre.length todo.length } =
      .ok (todo.map (fun c => some (acquired c)),
        { resource_pool_ := pre ++ todo.map acquired, pending_res_ := [] }) := by
  induction todo generalizing pre with
  | nil => simp [getItems]
  | cons c cs ih =>
    have h := ih (pre ++ [acquired c])
    simp only [List.length_append, List.length_singleton, List.append_assoc,
      List.singleton_append] at h
    simp only [List.length_cons, getItems, GetItem, List.range'_succ, List.getElem?_append_right,
      le_refl, Nat.sub_self, List.getElem?_cons_zero, List.set_append_right, List.set_cons_zero,
      acquired, List.map_cons] at h ⊢
    rw [h]

end IdManager

/-! ## The allocator's invariant -/

theorem toSizeT_natCast {k : Nat} (h : k < 2 ^ 64) : toSizeT (k : Int) = k := by
  unfold toSizeT
  rw [Int.emod_eq_of_lt (by positivity) (by exact_mod_cast h)]
  simp

namespace IdManager

theorem inv_new (N : Nat) : Inv N (IdManager.new N) := by
  rw [new_eq]
  refine ⟨by simp, ?_, ?_, ?_, List.nodup_range N⟩
  · intro k c h
    simp only [List.getElem?_map, Option.map_eq_some'] at h
    obtain ⟨j, hj, rfl⟩ := h
    have hk := (List.getElem?_eq_some.1 hj).1
    rw [List.getElem?_range (by simpa using hk)] at hj
    simp only [Option.some.injEq] at hj
    simp [fresh, hj]
  · intro k c h
    simp only [List.getElem?_map, Option.map_eq_some'] at h
    obtain ⟨j, hj, rfl⟩ := h
    have hk := (List.getElem?_eq_some.1 hj).1
    simp only [List.length_range] at hk
    simp [fresh, hk]
  · intro p hp
    simpa using hp

/-- Replacing the slot at position `n` by one with the same index keeps the
invariant, provided the new deque matches the new states. -/
theorem Inv.set {N : Nat} {m : IdManager} (h : Inv N m) {n : Nat} {cur c' : IdItem}
    {pend : List Nat} (hcur : m.resource_pool_[n]? = some cur) (hno : c'.no = cur.no)
    (hmem : ∀ k, k ∈ pend ↔ if k = n then c'.status = kResPending else k ∈ m.pending_res_)
    (hnd : pend.Nodup) :
    Inv N { resource_pool_ := m.resource_pool_.set n c', pending_res_ := pend } := by
  have hn : n < m.resource_pool_.length := (List.getElem?_eq_some.1 hcur).1
  refine ⟨by simpa using h.len, ?_, ?_, ?_, hnd⟩
  · intro k c hk
    simp only [List.getElem?_set] at hk
    by_cases e : n = k
    · subst e
      simp only [if_true, hn, Option.some.injEq] at hk
      subst hk
      rw [hno]
      exact h.no_eq n cur hcur
    · simp only [e, if_false] at hk
      exact h.no_eq k c hk
  · intro k c hk
    simp only [List.getElem?_set] at hk
    rw [hmem k]
    by_cases e : n = k
    · subst e
      simp only [if_true, hn, Option.some.injEq] at hk
      subst hk
      simp
    · simp only [e, if_false] at hk
      have e' : ¬ k = n := fun x => e x.symm
      simp only [e', if_false]
      exact h.pending_iff k c hk
  · intro p hp
    rw [hmem p] at hp
    by_cases e : p = n
    · subst e
      rw [← h.len]
      exact hn
    · simp only [e, if_false] at hp
      exact h.pending_lt p hp

theorem Inv.getItem {N : Nat} {m m' : IdManager} {r : Option IdItem} (h : Inv N m)
    (hs : m.GetItem = .ok (r, m')) : Inv N m' := by
  unfold GetItem at hs
  split at hs
  · simp only [Except.ok.injEq, Prod.mk.injEq] at hs
    rw [← hs.2]
    exact h
  · rename_i p rest hp
    split at hs
    · simp at hs
    · rename_i cur hcur
      simp only [Except.ok.injEq, Prod.mk.injEq] at hs
      rw [← hs.2]
      have hnd := h.nodup
      rw [hp, List.nodup_cons] at hnd
      refine h.set hcur rfl ?_ hnd.2
      intro k
      by_cases e : k = p
      · subst e
        simp [hnd.1]
      · simp [e, hp]

theorem Inv.getCertainItem {N : Nat} {m m' : IdManager} {r : Option IdItem} {no : Int}
    (h : Inv N m) (hs : m.GetCertainItem no = .ok (r, m')) : Inv N m' := by
  unfold GetCertainItem at hs
  simp only at hs
  split at hs
  · simp only [Except.ok.injEq, Prod.mk.injEq] at hs
    rw [← hs.2]
    exact h
  · split at hs
    · simp at hs
    · rename_i cur hcur
      split at hs
      · rename_i hst
        simp only [Except.ok.injEq, Prod.mk.injEq] at hs
        rw [← hs.2]
        refine h.set hcur rfl ?_ h.nodup
        intro k
        by_cases e : k = toSizeT no
        · subst e
          simp only [if_true, hst]
          rw [← h.pending_iff _ cur hcur, hst]
        · simp [e]
      · simp only [Except.ok.injEq, Prod.mk.injEq] at hs
        rw [← hs.2]
        exact h

theorem Inv.returnBackItem {N : Nat} {m m' : IdManager} {no : Int}
    (h : Inv N m) (hs : m.ReturnBackItem no = .ok m') : Inv N m' := by
  unfold ReturnBackItem at hs
  simp only at hs
  split at hs
  · simp at hs
  · rename_i cur hcur
    split at hs
    · rename_i hst
      simp only [Except.ok.injEq] at hs
      rw [← hs]
      have hnot : toSizeT no ∉ m.pending_res_ := by
        rw [← h.pending_iff _ cur hcur, hst]
        simp
      refine h.set hcur rfl ?_ (List.nodup_cons.2 ⟨hnot, h.nodup⟩)
      intro k
      by_cases e : k = toSizeT no
      · subst e
        simp
      · simp [e]
    · simp only [Except.ok.injEq] at hs
      rw [← hs]
      exact h

theorem Inv.finishItem {N : Nat} {m m' : IdManager} {b : Bool} {no : Int}
    (h : Inv N m) (hs : m.FinishItem no = .ok (b, m')) : Inv N m' := by
  unfold FinishItem at hs
  simp only at hs
  split at hs
  · simp only [Except.ok.injEq, Prod.mk.injEq] at hs
    rw [← hs.2]
    exact h
  · split at hs
    · simp at hs
    · rename_i cur hcur
      split at hs
      · rename_i hst
        simp only [Except.ok.injEq, Prod.mk.injEq] at hs
        rw [← hs.2]
        refine h.set hcur rfl ?_ h.nodup
        intro k
        by_cases e : k = toSizeT no
        · subst e
          simp only [if_true]
          rw [← h.pending_iff _ cur hcur, hst]
          simp
        · simp [e]
      · simp only [Except.ok.injEq, Prod.mk.injEq] at hs
        rw [← hs.2]
        exact h

theorem Inv.checkCertainItem {N : Nat} {m m' : IdManager} {p : Option Nat} {no : Int}
    (h : Inv N m) (hs : m.CheckCertainItem no = .ok (p, m')) : Inv N m' := by
  unfold CheckCertainItem at hs
  simp only at hs
  split at hs
  · simp only [Except.ok.injEq, Prod.mk.injEq] at hs
    rw [← hs.2]
    exact h
  · split at hs
    · simp at hs
    · simp only [Except.ok.injEq, Prod.mk.injEq] at hs
      rw [← hs.2]
      exact h

theorem map_eq_ok {α β : Type} {f : α → β} {x : Except Fault α} {y : β}
    (h : x.map f = .ok y) : ∃ a, x = .ok a ∧ f a = y := by
  cases x with
  | error e => simp [Except.map] at h
  | ok a => exact ⟨a, rfl, by simpa [Except.map] using h⟩

theorem Inv.step {N : Nat} {m m' : IdManager} {c : Call} {r : Reply} (h : Inv N m)
    (hs : m.step c = .ok (r, m')) : Inv N m' := by
  cases c with
  | getItem =>
    obtain ⟨a, ha, e⟩ := map_eq_ok hs
    simp only [Prod.mk.injEq] at e
    exact h.getItem (r := a.1) (by rw [ha, ← e.2])
  | getCertainItem no =>
    obtain ⟨a, ha, e⟩ := map_eq_ok hs
    simp only [Prod.mk.injEq] at e
    exact h.getCertainItem (r := a.1) (by rw [ha, ← e.2])
  | returnBackItem no =>
    obtain ⟨a, ha, e⟩ := map_eq_ok hs
    simp only [Prod.mk.injEq] at e
    exact h.returnBackItem (by rw [ha, ← e.2])
  | finishItem no =>
    obtain ⟨a, ha, e⟩ := map_eq_ok hs
    simp only [Prod.mk.injEq] at e
    exact h.finishItem (b := a.1) (by rw [ha, ← e.2])
  | checkCertainItem no =>
    obtain ⟨a, ha, e⟩ := map_eq_ok hs
    simp only [Prod.mk.injEq] at e
    exact h.checkCertainItem (p := a.1) (by rw [ha, ← e.2])

theorem Reachable.inv {N : Nat} {m : IdManager} (h : Reachable (N : Int) m) : Inv N m := by
  induction h with
  | ctor => exact inv_new N
  | call _ hs ih => exact ih.step hs

/-- In a well-formed allocator every in-range position holds a slot carrying
that position as its index. -/
theorem Inv.slot {N : Nat} {m : IdManager} (h : Inv N m) {i : Nat} (hi : i < N) :
    ∃ cur, m.resource_pool_[i]? = some cur ∧ cur.no = (i : Int) := by
  have hlt : i < m.resource_pool_.length := by rw [h.len]; exact hi
  exact ⟨m.resource_pool_[i], List.getElem?_eq_getElem hlt,
    h.no_eq i _ (List.getElem?_eq_getElem hlt)⟩

end IdManager

/-! ## Evaluating the calls at a known slot -/

namespace IdManager

theorem lt_of_getElem? {m : IdManager} {n : Nat} {cur : IdItem}
    (h : m.resource_pool_[n]? = some cur) : n < m.resource_pool_.length :=
  (List.getElem?_eq_some.1 h).1

theorem returnBackItem_eval (m : IdManager) (no : Int) (cur : IdItem)
    (h : m.resource_pool_[toSizeT no]? = some cur) :
    m.ReturnBackItem no =
      if cur.status = kResAllocated then
        .ok { resource_pool_ := m.resource_pool_.set (toSizeT no) { cur with status := kResPending }
              pending_res_ := toSizeT no :: m.pending_res_ }
      else .ok m := by
  simp only [ReturnBackItem, h]

theorem finishItem_eval (m : IdManager) (no : Int) (cur : IdItem)
    (h : m.resource_pool_[toSizeT no]? = some cur) :
    m.FinishItem no =
      if cur.status = kResAllocated then
        .ok (true, { m with resource_pool_ :=
          m.resource_pool_.set (toSizeT no) { cur with status := kResDone } })
      else .ok (false, m) := by
  have hlt := lt_of_getElem? h
  simp only [FinishItem, h, gt_iff_lt, not_lt_of_gt hlt, if_false]

theorem getCertainItem_eval (m : IdManager) (no : Int) (cur : IdItem)
    (h : m.resource_pool_[toSizeT no]? = some cur) :
    m.GetCertainItem no =
      if cur.status = kResAllocated then
        .ok (some { cur with attempt := cur.attempt + 1 },
          { m with
            resource_pool_ :=
              m.resource_pool_.set (toSizeT no) { cur with attempt := cur.attempt + 1 } })
      else .ok (none, m) := by
  have hlt := lt_of_getElem? h
  simp only [GetCertainItem, h, gt_iff_lt, not_lt_of_gt hlt, if_false]

theorem checkCertainItem_eval (m : IdManager) (no : Int) (cur : IdItem)
    (h : m.resource_pool_[toSizeT no]? = some cur) :
    m.CheckCertainItem no = .ok (some (toSizeT no), m) := by
  have hlt := lt_of_getElem? h
  simp only [CheckCertainItem, h, gt_iff_lt, not_lt_of_gt hlt, if_false]

/-- What a successful `GetItem` did, in a well-formed allocator. -/
theorem Inv.getItem_some {N : Nat} {m m1 : IdManager} {it : IdItem} (h : Inv N m)
    (hg : m.GetItem = .ok (some it, m1)) :
    ∃ p cur rest, m.pending_res_ = p :: rest ∧ m.resource_pool_[p]? = some cur ∧
      it = acquired cur ∧ it.no = (p : Int) ∧ p < N ∧
      m1 = { resource_pool_ := m.resource_pool_.set p it, pending_res_ := rest } := by
  unfold GetItem at hg
  split at hg
  · simp at hg
  · rename_i p rest hp
    split at hg
    · simp at hg
    · rename_i cur hcur
      simp only [Except.ok.injEq, Prod.mk.injEq, Option.some.injEq] at hg
      refine ⟨p, cur, rest, hp, hcur, hg.1.symm, ?_, ?_, ?_⟩
      · rw [← hg.1]
        exact h.no_eq p cur hcur
      · exact h.pending_lt p (by simp [hp])
      · rw [← hg.2, ← hg.1]

theorem toSizeT_index {N i : Nat} (hN : N < 2 ^ 31) (hi : i < N) : toSizeT (i : Int) = i :=
  toSizeT_natCast (by omega)

end IdManager

/-! ## The planner's constructor: numbering -/

theorem wrapInt32_succ (x : Int) : wrapInt32 (wrapInt32 x + 1) = wrapInt32 (x + 1) := by
  unfold wrapInt32
  omega

theorem wrapInt32_of_range {x : Int} (h : -2 ^ 31 ≤ x) (h' : x < 2 ^ 31) : wrapInt32 x = x := by
  unfold wrapInt32
  omega

theorem wrapInt64_of_range {x : Int} (h : -2 ^ 63 ≤ x) (h' : x < 2 ^ 63) : wrapInt64 x = x := by
  unfold wrapInt64
  omega

theorem wrapInt32_natCast_le (n : Nat) : wrapInt32 (n : Int) ≤ n := by
  unfold wrapInt32
  omega

theorem wrapInt32_lt (x : Int) : wrapInt32 x < 2 ^ 31 := by
  unfold wrapInt32
  omega

theorem checkedInt32_ok {x y : Int} (h : checkedInt32 x = .ok y) :
    y = x ∧ -2 ^ 31 ≤ x ∧ x < 2 ^ 31 := by
  unfold checkedInt32 at h
  split at h
  · rename_i hr
    simp only [Except.ok.injEq] at h
    exact ⟨h.symm, hr.1, hr.2⟩
  · simp at h

theorem checkedInt64_ok {x y : Int} (h : checkedInt64 x = .ok y) :
    y = x ∧ -2 ^ 63 ≤ x ∧ x < 2 ^ 63 := by
  unfold checkedInt64 at h
  split at h
  · rename_i hr
    simp only [Except.ok.injEq] at h
    exact ⟨h.symm, hr.1, hr.2⟩
  · simp at h

theorem checkedInt32_of_range {x : Int} (h : -2 ^ 31 ≤ x) (h' : x < 2 ^ 31) :
    checkedInt32 x = .ok x := by
  unfold checkedInt32
  rw [if_pos ⟨h, h'⟩]

theorem checkedInt64_of_range {x : Int} (h : -2 ^ 63 ≤ x) (h' : x < 2 ^ 63) :
    checkedInt64 x = .ok x := by
  unfold checkedInt64
  rw [if_pos ⟨h, h'⟩]

namespace ResourceManager

/-- Where the loop body leaves defined behaviour: `counter++` at `INT_MAX`
(after the last unit, line 144, and inside the loop, line 135), the quotient
`INT64_MIN / -1`, the difference `size - blocks * block_size` beyond 64 bits,
and a block size of 0. -/
theorem splitFile_faults :
    splitFile 1 ⟨"a", 0⟩ (2 ^ 31 - 1) [] = .error .signedOverflow ∧
    splitFile 1 ⟨"a", 1⟩ (2 ^ 31 - 1) [] = .error .signedOverflow ∧
    splitFile (-1) ⟨"a", -2 ^ 63⟩ 0 [] = .error .signedOverflow ∧
    splitFile 1 ⟨"a", 2 ^ 63 - 1⟩ 0 [] = .error .signedOverflow ∧
    splitFile 0 ⟨"a", 5⟩ 0 [] = .error .divByZero :=
  ⟨rfl, rfl, rfl, rfl, rfl⟩

theorem CtorInv.push {pool : List ResourceItem} {counter : Int} (h : CtorInv pool counter)
    (name : String) (off sz : Int) :
    CtorInv (pool ++ [{ no := counter, attempt := 0, input_file := name, offset := off, size := sz }])
      (wrapInt32 (counter + 1)) := by
  obtain ⟨hc, hk⟩ := h
  refine ⟨?_, ?_⟩
  · rw [hc, wrapInt32_succ]
    simp
  · intro k u hu
    by_cases hlt : k < pool.length
    · rw [List.getElem?_append_left hlt] at hu
      exact hk k u hu
    · rw [List.getElem?_append_right (not_lt.1 hlt)] at hu
      have hz : k - pool.length = 0 := by
        by_contra hne
        obtain ⟨j, hj⟩ := Nat.exists_eq_succ_of_ne_zero hne
        rw [hj] at hu
        simp at hu
      rw [hz] at hu
      simp only [List.getElem?_cons_zero, Option.some.injEq] at hu
      have hkl : k = pool.length := by omega
      subst hu
      exact ⟨by rw [hkl]; exact hc, rfl⟩

theorem CtorInv.push_checked {pool : List ResourceItem} {counter counter' : Int}
    (h : CtorInv pool counter) (hc : checkedInt32 (counter + 1) = .ok counter')
    (name : String) (off sz : Int) :
    CtorInv (pool ++ [{ no := counter, attempt := 0, input_file := name, offset := off, size := sz }])
      counter' := by
  obtain ⟨rfl, h1, h2⟩ := checkedInt32_ok hc
  have := h.push name off sz
  rw [wrapInt32_of_range h1 h2] at this
  exact this

theorem CtorInv.of_fullBlocks {pool pool' : List ResourceItem} {counter counter' : Int}
    (h : CtorInv pool counter) {name : String} {block_size : Int} {k : Nat} {i : Int}
    (hs : fullBlocks name block_size k i counter pool = .ok (pool', counter')) :
    CtorInv pool' counter' := by
  induction k generalizing i counter pool with
  | zero =>
    simp only [ResourceManager.fullBlocks, Except.ok.injEq, Prod.mk.injEq] at hs
    rw [← hs.1, ← hs.2]
    exact h
  | succ k ih =>
    simp only [ResourceManager.fullBlocks] at hs
    cases hc : checkedInt32 (counter + 1) with
    | error e => simp [hc] at hs
    | ok c1 =>
      cases ho : checkedInt64 (i * block_size) with
      | error e => simp [hc, ho] at hs
      | ok off =>
        simp only [hc, ho] at hs
        exact ih (h.push_checked hc name off block_size) hs

theorem CtorInv.of_splitFile {pool pool' : List ResourceItem} {counter counter' : Int}
    (h : CtorInv pool counter) {block_size : Int} {f : FileInfo}
    (hs : splitFile block_size f counter pool = .ok (pool', counter')) :
    CtorInv pool' counter' := by
  unfold ResourceManager.splitFile at hs
  split at hs
  · simp at hs
  · cases hq : checkedInt64 (Int.tdiv f.size block_size) with
    | error e => simp [hq] at hs
    | ok quotient =>
      simp only [hq] at hs
      cases hf : fullBlocks f.name block_size (wrapInt32 quotient).toNat 0 counter pool with
      | error e => simp [hf] at hs
      | ok x =>
        obtain ⟨pool1, counter1⟩ := x
        simp only [hf] at hs
        cases hw : checkedInt64 (wrapInt32 quotient * block_size) with
        | error e => simp [hw] at hs
        | ok whole =>
          simp only [hw] at hs
          cases hr : checkedInt64 (f.size - whole) with
          | error e => simp [hr] at hs
          | ok remainder =>
            simp only [hr] at hs
            cases hc : checkedInt32 (counter1 + 1) with
            | error e => simp [hc] at hs
            | ok counter2 =>
              simp only [hc, Except.ok.injEq, Prod.mk.injEq] at hs
              rw [← hs.1, ← hs.2]
              exact (h.of_fullBlocks hf).push_checked hc f.name _ _

theorem CtorInv.of_splitFiles {block_size : Int} {files : List FileInfo}
    {pool pool' : List ResourceItem} {counter counter' : Int} (h : CtorInv pool counter)
    (hs : splitFiles block_size files counter pool = .ok (pool', counter')) :
    CtorInv pool' counter' := by
  induction files generalizing pool counter with
  | nil =>
    simp only [ResourceManager.splitFiles, Except.ok.injEq, Prod.mk.injEq] at hs
    rw [← hs.1, ← hs.2]
    exact h
  | cons f fs ih =>
    rw [ResourceManager.splitFiles] at hs
    cases hf : splitFile block_size f counter pool with
    | error e => simp [hf] at hs
    | ok x =>
      obtain ⟨p1, c1⟩ := x
      simp only [hf] at hs
      exact ih (h.of_splitFile hf) hs

/-- What the constructor builds: a pool numbered by position with all attempts 0
and an allocator `IdManager(int(size))`. -/
theorem new_ok {files : List FileInfo} {block_size : Int} {r0 : ResourceManager}
    (h : ResourceManager.new files block_size = .ok r0) :
    (∃ counter, splitFiles block_size files 0 [] = .ok (r0.resource_pool_, counter)) ∧
      r0.manager_ = IdManager.new (wrapInt32 r0.resource_pool_.length) ∧
      ∀ (k : Nat) (u : ResourceItem), r0.resource_pool_[k]? = some u →
        u.no = wrapInt32 k ∧ u.attempt = 0 := by
  unfold ResourceManager.new at h
  have hz : wrapInt32 (([] : List ResourceItem).length) = 0 := by simp [wrapInt32]
  simp only [hz] at h
  cases hs : splitFiles block_size files 0 [] with
  | error e => simp [hs] at h
  | ok x =>
    obtain ⟨pool, c⟩ := x
    simp only [hs, Except.ok.injEq] at h
    subst h
    have hinv : CtorInv [] 0 := ⟨by simp [wrapInt32], by intro k u hu; simp at hu⟩
    exact ⟨⟨c, by simp only⟩, by simp only, (hinv.of_splitFiles hs).2⟩

end ResourceManager

/-! ## The planner's invariant -/

theorem map_set_of_eq {α β : Type} (f : α → β) {l : List α} {n : Nat} {x y : α}
    (h : l[n]? = some x) (hf : f y = f x) : (l.set n y).map f = l.map f := by
  apply List.ext_getElem?
  intro k
  simp only [List.getElem?_map, List.getElem?_set]
  by_cases e : n = k
  · subst e
    have hlt : n < l.length := (List.getElem?_eq_some.1 h).1
    simp [hlt, h, hf]
  · simp [e]

namespace IdManager

theorem getItem_none {m m' : IdManager} (h : m.GetItem = .ok (none, m')) : m' = m := by
  unfold GetItem at h
  split at h
  · simp only [Except.ok.injEq, Prod.mk.injEq, true_and] at h
    exact h.symm
  · split at h <;> simp at h

theorem getCertainItem_none {m m' : IdManager} {no : Int}
    (h : m.GetCertainItem no = .ok (none, m')) : m' = m := by
  unfold GetCertainItem at h
  simp only at h
  split at h
  · simp only [Except.ok.injEq, Prod.mk.injEq, true_and] at h
    exact h.symm
  · split at h
    · simp at h
    · split at h
      · simp at h
      · simp only [Except.ok.injEq, Prod.mk.injEq, true_and] at h
        exact h.symm

theorem getCertainItem_some {m m' : IdManager} {no : Int} {it : IdItem}
    (h : m.GetCertainItem no = .ok (some it, m')) :
    ∃ cur, m.resource_pool_[toSizeT no]? = some cur ∧ cur.status = kResAllocated ∧
      it = { cur with attempt := cur.attempt + 1 } ∧
      m' = { m with resource_pool_ := m.resource_pool_.set (toSizeT no) it } := by
  unfold GetCertainItem at h
  simp only at h
  split at h
  · simp at h
  · split at h
    · simp at h
    · rename_i cur hcur
      split at h
      · rename_i hst
        simp only [Except.ok.injEq, Prod.mk.injEq, Option.some.injEq] at h
        refine ⟨cur, hcur, hst, h.1.symm, ?_⟩
        rw [← h.2, ← h.1]
      · simp at h

theorem returnBackItem_attempts {m m' : IdManager} {no : Int}
    (h : m.ReturnBackItem no = .ok m') :
    m'.resource_pool_.map (fun c => c.attempt) = m.resource_pool_.map (fun c => c.attempt) := by
  unfold ReturnBackItem at h
  simp only at h
  split at h
  · simp at h
  · rename_i cur hcur
    split at h
    · simp only [Except.ok.injEq] at h
      rw [← h]
      exact map_set_of_eq _ hcur rfl
    · simp only [Except.ok.injEq] at h
      rw [← h]

theorem finishItem_attempts {m m' : IdManager} {no : Int} {b : Bool}
    (h : m.FinishItem no = .ok (b, m')) :
    m'.resource_pool_.map (fun c => c.attempt) = m.resource_pool_.map (fun c => c.attempt) := by
  unfold FinishItem at h
  simp only at h
  split at h
  · simp only [Except.ok.injEq, Prod.mk.injEq] at h
    rw [← h.2]
  · split at h
    · simp at h
    · rename_i cur hcur
      split at h
      · simp only [Except.ok.injEq, Prod.mk.injEq] at h
        rw [← h.2]
        exact map_set_of_eq _ hcur rfl
      · simp only [Except.ok.injEq, Prod.mk.injEq] at h
        rw [← h.2]

theorem checkCertainItem_ok {m m' : IdManager} {no : Int} {p : Option Nat}
    (h : m.CheckCertainItem no = .ok (p, m')) : m' = m := by
  unfold CheckCertainItem at h
  simp only at h
  split at h
  · simp only [Except.ok.injEq, Prod.mk.injEq] at h
    exact h.2.symm
  · split at h
    · simp at h
    · simp only [Except.ok.injEq, Prod.mk.injEq] at h
      exact h.2.symm

theorem new_toNat (n : Int) : IdManager.new n = IdManager.new ((n.toNat : Nat) : Int) := by
  unfold IdManager.new
  rw [Int.toNat_natCast]

end IdManager

namespace ResourceManager

theorem PInv.slots_lt {r0 r : ResourceManager} (h : PInv r0 r) :
    r.manager_.resource_pool_.length < 2 ^ 31 ∧
      r.manager_.resource_pool_.length ≤ r.resource_pool_.length := by
  have hl := h.alloc.len
  have h1 := wrapInt32_lt (r0.resource_pool_.length : Int)
  have h2 := wrapInt32_natCast_le r0.resource_pool_.length
  have h3 : r.resource_pool_.length = r0.resource_pool_.length := by
    simpa using congrArg List.length h.same
  omega

theorem PInv.start {files : List FileInfo} {block_size : Int} {r0 : ResourceManager}
    (h : ResourceManager.new files block_size = .ok r0) : PInv r0 r0 := by
  obtain ⟨-, hm, hk⟩ := new_ok h
  have hlen := wrapInt32_natCast_le r0.resource_pool_.length
  rw [IdManager.new_toNat] at hm
  generalize hN : (wrapInt32 r0.resource_pool_.length).toNat = N at hm
  have hNle : N ≤ r0.resource_pool_.length := by omega
  refine ⟨rfl, fun k u hu => (hk k u hu).1, ?_, ?_⟩
  · rw [hN, hm]
    exact IdManager.inv_new N
  · intro k hlt
    rw [hm, IdManager.new_eq] at hlt ⊢
    simp only [List.length_map, List.length_range] at hlt
    have hk2 : k < r0.resource_pool_.length := by omega
    rw [List.getElem?_eq_getElem hk2]
    simp only [List.getElem?_map, List.getElem?_range hlt, Option.map_some', IdManager.fresh,
      Option.some.injEq]
    exact (hk k _ (List.getElem?_eq_getElem hk2)).2

/-- Writing an attempt count into the planner's copy of slot `p`, where the
allocator now holds a slot with that count, keeps the invariant. -/
theorem PInv.write {r0 r : ResourceManager} (h : PInv r0 r) {p : Nat} (it : IdItem)
    {resource : ResourceItem} (hres : r.resource_pool_[p]? = some resource)
    (pend : List Nat)
    (hinv' : IdManager.Inv (wrapInt32 r0.resource_pool_.length).toNat
      { resource_pool_ := r.manager_.resource_pool_.set p it, pending_res_ := pend }) :
    PInv r0
      { resource_pool_ := r.resource_pool_.set p { resource with attempt := it.attempt }
        manager_ := { resource_pool_ := r.manager_.resource_pool_.set p it, pending_res_ := pend } } := by
  have hp : p < r.resource_pool_.length := (List.getElem?_eq_some.1 hres).1
  refine ⟨?_, h.numbered, hinv', ?_⟩
  · simp only [map_set_of_eq frozen hres (show frozen { resource with attempt := it.attempt } =
      frozen resource from rfl)]
    exact h.same
  · intro k hk
    simp only [List.length_set] at hk
    simp only [List.getElem?_set]
    by_cases e : p = k
    · subst e
      simp [hp, hk]
    · simp only [e, if_false]
      exact h.sync k hk

end ResourceManager

namespace ResourceManager

/-- Under the invariant every allocator slot `k` has its unit in the planner's
pool, numbered `k`, with the split metadata of the constructed pool. -/
theorem PInv.unit {r0 r : ResourceManager} (h : PInv r0 r) {k : Nat}
    (hk : k < r.manager_.resource_pool_.length) :
    ∃ u u0, r.resource_pool_[k]? = some u ∧ r0.resource_pool_[k]? = some u0 ∧
      u.no = (k : Int) ∧ frozen u = frozen u0 ∧ toSizeT (k : Int) = k := by
  obtain ⟨h31, hle⟩ := h.slots_lt
  have hk1 : k < r.resource_pool_.length := by omega
  have hk0 : k < r0.resource_pool_.length := by
    have : r.resource_pool_.length = r0.resource_pool_.length := by
      simpa using congrArg List.length h.same
    omega
  have hfz : frozen r.resource_pool_[k] = frozen r0.resource_pool_[k] := by
    have := congrArg (fun l => l[k]?) h.same
    simpa [List.getElem?_map, List.getElem?_eq_getElem hk1, List.getElem?_eq_getElem hk0]
      using this
  have hno0 := h.numbered k _ (List.getElem?_eq_getElem hk0)
  rw [wrapInt32_of_range (by omega) (by omega)] at hno0
  refine ⟨_, _, List.getElem?_eq_getElem hk1, List.getElem?_eq_getElem hk0, ?_, hfz,
    toSizeT_natCast (by omega)⟩
  have := congrArg Prod.fst hfz
  simp only [frozen] at this
  rw [this, hno0]

theorem getItem_of_none {r : ResourceManager} {m' : IdManager}
    (h : r.manager_.GetItem = .ok (none, m')) :
    r.GetItem = .ok (none, { r with manager_ := m' }) := by
  simp only [ResourceManager.GetItem, h]

theorem getItem_of_error {r : ResourceManager} {e : Fault}
    (h : r.manager_.GetItem = .error e) : r.GetItem = .error e := by
  simp only [ResourceManager.GetItem, h]

theorem getItem_of_some {r0 r : ResourceManager} (hinv : PInv r0 r) {it : IdItem}
    {m' : IdManager} (h : r.manager_.GetItem = .ok (some it, m')) :
    ∃ u0, r0.resource_pool_[it.no.toNat]? = some u0 ∧
      r.GetItem = .ok (some ⟨it.no, it.attempt, u0.input_file, u0.offset, u0.size⟩,
        { resource_pool_ := r.resource_pool_.set it.no.toNat
            ⟨it.no, it.attempt, u0.input_file, u0.offset, u0.size⟩
          manager_ := m' }) ∧
      PInv r0 { resource_pool_ := r.resource_pool_.set it.no.toNat
                  ⟨it.no, it.attempt, u0.input_file, u0.offset, u0.size⟩
                manager_ := m' } := by
  obtain ⟨p, cur, rest, -, hcur, -, hno, -, hm'⟩ := hinv.alloc.getItem_some h
  obtain ⟨u, u0, hu, hu0, hun, hfz, hsz⟩ := hinv.unit (IdManager.lt_of_getElem? hcur)
  have hnat : it.no.toNat = p := by rw [hno]; simp
  simp only [frozen, static, Prod.mk.injEq] at hfz
  have hres : ({ u with attempt := it.attempt } : ResourceItem) =
      ⟨it.no, it.attempt, u0.input_file, u0.offset, u0.size⟩ := by
    rw [hno, ← hun, ← hfz.2.1, ← hfz.2.2.1, ← hfz.2.2.2]
  refine ⟨u0, by rw [hnat]; exact hu0, ?_, ?_⟩
  · rw [hnat]
    simp only [ResourceManager.GetItem, h, hno, hsz, hu]
    rw [hno] at hres
    rw [hres]
  · have hw := hinv.write it hu rest (by rw [← hm']; exact hinv.alloc.getItem h)
    rw [hnat, ← hres, hm']
    exact hw

theorem getCertainItem_of_none {r : ResourceManager} {no : Int} {m' : IdManager}
    (h : r.manager_.GetCertainItem no = .ok (none, m')) :
    r.GetCertainItem no = .ok (none, { r with manager_ := m' }) := by
  simp only [ResourceManager.GetCertainItem, h]

theorem getCertainItem_of_error {r : ResourceManager} {no : Int} {e : Fault}
    (h : r.manager_.GetCertainItem no = .error e) : r.GetCertainItem no = .error e := by
  simp only [ResourceManager.GetCertainItem, h]

theorem getCertainItem_of_some {r0 r : ResourceManager} (hinv : PInv r0 r) {no : Int}
    {it : IdItem} {m' : IdManager} (h : r.manager_.GetCertainItem no = .ok (some it, m')) :
    ∃ u0, r0.resource_pool_[it.no.toNat]? = some u0 ∧ it.no = (toSizeT no : Int) ∧
      r.GetCertainItem no = .ok (some ⟨it.no, it.attempt, u0.input_file, u0.offset, u0.size⟩,
        { resource_pool_ := r.resource_pool_.set it.no.toNat
            ⟨it.no, it.attempt, u0.input_file, u0.offset, u0.size⟩
          manager_ := m' }) ∧
      PInv r0 { resource_pool_ := r.resource_pool_.set it.no.toNat
                  ⟨it.no, it.attempt, u0.input_file, u0.offset, u0.size⟩
                manager_ := m' } := by
  obtain ⟨cur, hcur, -, hit, hm'⟩ := IdManager.getCertainItem_some h
  obtain ⟨u, u0, hu, hu0, hun, hfz, -⟩ := hinv.unit (IdManager.lt_of_getElem? hcur)
  have hno : it.no = (toSizeT no : Int) := by
    rw [hit]
    exact hinv.alloc.no_eq _ cur hcur
  have hnat : it.no.toNat = toSizeT no := by rw [hno]; simp
  simp only [frozen, static, Prod.mk.injEq] at hfz
  have hres : ({ u with attempt := it.attempt } : ResourceItem) =
      ⟨it.no, it.attempt, u0.input_file, u0.offset, u0.size⟩ := by
    rw [hno, ← hun, ← hfz.2.1, ← hfz.2.2.1, ← hfz.2.2.2]
  refine ⟨u0, by rw [hnat]; exact hu0, hno, ?_, ?_⟩
  · simp only [ResourceManager.GetCertainItem, h, hu, hnat]
    rw [hres]
  · have hw := hinv.write it hu r.manager_.pending_res_
      (by rw [← hm']; exact hinv.alloc.getCertainItem h)
    rw [hnat, ← hres, hm']
    exact hw

/-- A call that only replaces the allocator by one with the same attempt counts
keeps the invariant. -/
theorem PInv.replace {r0 r : ResourceManager} (h : PInv r0 r) {m' : IdManager}
    (hinv : IdManager.Inv (wrapInt32 r0.resource_pool_.length).toNat m')
    (hatt : m'.resource_pool_.map (fun c => c.attempt) =
      r.manager_.resource_pool_.map (fun c => c.attempt)) :
    PInv r0 { r with manager_ := m' } := by
  refine ⟨h.same, h.numbered, hinv, ?_⟩
  intro k hk
  have hlen : m'.resource_pool_.length = r.manager_.resource_pool_.length := by
    simpa using congrArg List.length hatt
  have e1 := congrArg (fun l => l[k]?) hatt
  simp only [List.getElem?_map] at e1
  show Option.map _ r.resource_pool_[k]? = Option.map _ m'.resource_pool_[k]?
  rw [e1]
  exact h.sync k (by simpa [hlen] using hk)

theorem PInv.preserved {r0 r r' : ResourceManager} {c : IdManager.Call} {x : Reply}
    (h : PInv r0 r) (hs : r.step c = .ok (x, r')) : PInv r0 r' := by
  cases c with
  | getItem =>
    obtain ⟨a, ha, e⟩ := IdManager.map_eq_ok hs
    simp only [Prod.mk.injEq] at e
    rw [← e.2]
    cases hg : r.manager_.GetItem with
    | error e1 => rw [getItem_of_error hg] at ha; simp at ha
    | ok y =>
      obtain ⟨o, m'⟩ := y
      cases o with
      | none =>
        rw [getItem_of_none hg, IdManager.getItem_none hg] at ha
        simp only [Except.ok.injEq] at ha
        rw [← ha]
        exact h
      | some it =>
        obtain ⟨u0, -, hev, hp⟩ := getItem_of_some h hg
        rw [hev] at ha
        simp only [Except.ok.injEq] at ha
        rw [← ha]
        exact hp
  | getCertainItem no =>
    obtain ⟨a, ha, e⟩ := IdManager.map_eq_ok hs
    simp only [Prod.mk.injEq] at e
    rw [← e.2]
    cases hg : r.manager_.GetCertainItem no with
    | error e1 => rw [getCertainItem_of_error hg] at ha; simp at ha
    | ok y =>
      obtain ⟨o, m'⟩ := y
      cases o with
      | none =>
        rw [getCertainItem_of_none hg, IdManager.getCertainItem_none hg] at ha
        simp only [Except.ok.injEq] at ha
        rw [← ha]
        exact h
      | some it =>
        obtain ⟨u0, -, -, hev, hp⟩ := getCertainItem_of_some h hg
        rw [hev] at ha
        simp only [Except.ok.injEq] at ha
        rw [← ha]
        exact hp
  | returnBackItem no =>
    obtain ⟨a, ha, e⟩ := IdManager.map_eq_ok hs
    simp only [Prod.mk.injEq] at e
    rw [← e.2]
    unfold ResourceManager.ReturnBackItem at ha
    cases hg : r.manager_.ReturnBackItem no with
    | error e1 => simp [hg] at ha
    | ok m' =>
      simp only [hg, Except.ok.injEq] at ha
      rw [← ha]
      exact h.replace (h.alloc.returnBackItem hg) (IdManager.returnBackItem_attempts hg)
  | finishItem no =>
    obtain ⟨a, ha, e⟩ := IdManager.map_eq_ok hs
    simp only [Prod.mk.injEq] at e
    rw [← e.2]
    unfold ResourceManager.FinishItem at ha
    cases hg : r.manager_.FinishItem no with
    | error e1 => simp [hg] at ha
    | ok y =>
      obtain ⟨b, m'⟩ := y
      simp only [hg, Except.ok.injEq] at ha
      rw [← ha]
      exact h.replace (h.alloc.finishItem hg) (IdManager.finishItem_attempts hg)
  | checkCertainItem no =>
    obtain ⟨a, ha, e⟩ := IdManager.map_eq_ok hs
    simp only [Prod.mk.injEq] at e
    rw [← e.2]
    unfold ResourceManager.CheckCertainItem at ha
    cases hg : r.manager_.CheckCertainItem no with
    | error e1 => simp [hg] at ha
    | ok y =>
      obtain ⟨o, m'⟩ := y
      have hm' := IdManager.checkCertainItem_ok hg
      subst hm'
      cases o with
      | none => simp [hg] at ha
      | some q =>
        simp only [hg] at ha
        split at ha
        · simp at ha
        · split at ha
          · simp at ha
          · simp only [Except.ok.injEq] at ha
            rw [← ha]
            exact h

theorem Reachable.pinv {files : List FileInfo} {block_size : Int} {r0 r : ResourceManager}
    (hnew : ResourceManager.new files block_size = .ok r0) (h : Reachable r0 r) : PInv r0 r := by
  induction h with
  | start => exact PInv.start hnew
  | call _ hs ih => exact ih.preserved hs

end ResourceManager

/-! ## The constructor against the specification's split law -/

namespace ResourceManager

theorem fullBlocks_exact (name : String) {B : Int} (hB : 0 < B) (k : Nat) (i c : Nat)
    (pool : List ResourceItem) (hc : c + k < 2 ^ 31) (hi : ((i + k : Nat) : Int) * B < 2 ^ 63) :
    fullBlocks name B k (i : Int) (c : Int) pool =
      .ok (pool ++ (List.range k).map
        (fun j : Nat => ⟨((c + j : Nat) : Int), 0, name, ((i + j : Nat) : Int) * B, B⟩),
       ((c + k : Nat) : Int)) := by
  induction k generalizing i c pool with
  | zero => simp [fullBlocks]
  | succ k ih =>
    have hiB : (0 : Int) ≤ (i : Int) * B := by positivity
    have hle : (i : Int) * B ≤ ((i + (k + 1) : Nat) : Int) * B := by
      apply Int.mul_le_mul_of_nonneg_right _ hB.le
      push_cast
      omega
    have h64 : checkedInt64 ((i : Int) * B) = .ok ((i : Int) * B) :=
      checkedInt64_of_range (by omega) (by omega)
    have h32 : checkedInt32 ((c : Int) + 1) = .ok ((c + 1 : Nat) : Int) := by
      rw [checkedInt32_of_range (by omega) (by omega)]
      push_cast
      rfl
    have hi1 : (i : Int) + 1 = ((i + 1 : Nat) : Int) := by push_cast; rfl
    have hg : (fun j : Nat => (⟨((c + 1 + j : Nat) : Int), 0, name,
          ((i + 1 + j : Nat) : Int) * B, B⟩ : ResourceItem)) =
        (fun j : Nat => (⟨((c + j : Nat) : Int), 0, name,
          ((i + j : Nat) : Int) * B, B⟩ : ResourceItem)) ∘ Nat.succ := by
      funext a
      simp only [Function.comp, Nat.succ_eq_add_one]
      rw [show c + 1 + a = c + (a + 1) by omega, show i + 1 + a = i + (a + 1) by omega]
    rw [fullBlocks.eq_2, h32]
    dsimp only
    rw [h64]
    dsimp only
    rw [hi1, ih (i + 1) (c + 1) _ (by omega)
      (by rw [show i + 1 + k = i + (k + 1) by omega]; exact hi), hg,
      show c + 1 + k = c + (k + 1) by omega, List.range_succ_eq_map, List.map_cons,
      List.map_map, List.append_assoc, List.singleton_append]
    simp only [Nat.add_zero]

/-- Bounds on the quotient and the remainder of a source's length. -/
theorem split_bounds {L B : Int} (hB : 0 < B) (hB' : B < 2 ^ 31) (hL : 0 ≤ L)
    (hq : L / B < 2 ^ 31) :
    0 ≤ L / B ∧ ((L / B).toNat : Int) = L / B ∧ 0 ≤ L / B * B ∧ L / B * B ≤ L ∧
      L - L / B * B < B ∧ L < 2 ^ 62 := by
  have h0 : 0 ≤ L / B := Int.ediv_nonneg hL hB.le
  have h1 : L / B * B ≤ L := Int.ediv_mul_le L (ne_of_gt hB)
  have h2 : L < (L / B + 1) * B := Int.lt_ediv_add_one_mul_self L hB
  have h3 : 0 ≤ L / B * B := by positivity
  have h4 : (L / B + 1) * B ≤ 2 ^ 31 * 2 ^ 31 :=
    Int.mul_le_mul (by omega) hB'.le hB.le (by norm_num)
  refine ⟨h0, Int.toNat_of_nonneg h0, h3, h1, by linarith, ?_⟩
  have : (2 : Int) ^ 31 * 2 ^ 31 = 2 ^ 62 := by norm_num
  omega

theorem splitFile_exact {B : Int} (hB : 0 < B) (hB' : B < 2 ^ 31) (f : FileInfo)
    (hL : 0 ≤ f.size) (c : Nat) (pool : List ResourceItem)
    (hc : c + (f.size / B).toNat + 1 < 2 ^ 31) :
    splitFile B f (c : Int) pool =
      .ok (pool ++ specSplit B c f, ((c + specUnits B f : Nat) : Int)) := by
  have hq : f.size / B < 2 ^ 31 := by
    have := Int.toNat_of_nonneg (Int.ediv_nonneg hL hB.le)
    omega
  obtain ⟨h0, hnat, h3, h1, h2, h62⟩ := split_bounds hB hB' hL hq
  have hquot : checkedInt64 (Int.tdiv f.size B) = .ok (f.size / B) := by
    rw [Int.tdiv_eq_ediv hL hB.le]
    exact checkedInt64_of_range (by omega) (by omega)
  have hblocks : wrapInt32 (f.size / B) = f.size / B := wrapInt32_of_range (by omega) hq
  have hwhole : checkedInt64 (f.size / B * B) = .ok (f.size / B * B) :=
    checkedInt64_of_range (by omega) (by omega)
  have hrem : checkedInt64 (f.size - f.size / B * B) = .ok (f.size - f.size / B * B) :=
    checkedInt64_of_range (by omega) (by omega)
  have hrest : wrapInt32 (f.size - f.size / B * B) = f.size - f.size / B * B :=
    wrapInt32_of_range (by omega) (by omega)
  have hfull := fullBlocks_exact f.name hB (f.size / B).toNat 0 c pool (by omega)
    (by simp only [Nat.zero_add]; rw [hnat]; omega)
  simp only [Nat.cast_zero] at hfull
  have hcnt : checkedInt32 (((c + (f.size / B).toNat : Nat) : Int) + 1) =
      .ok ((c + specUnits B f : Nat) : Int) := by
    rw [checkedInt32_of_range (by omega) (by omega)]
    simp only [specUnits]
    push_cast
    rw [Int.add_assoc]
  unfold splitFile
  rw [if_neg (ne_of_gt hB), hquot]
  dsimp only
  rw [hblocks, hfull]
  dsimp only
  rw [hcnt, hwhole]
  dsimp only
  rw [hrem]
  dsimp only
  rw [hrest]
  simp only [specSplit, Nat.zero_add, List.append_assoc]

theorem length_specSplit (B : Int) (start : Nat) (f : FileInfo) :
    (specSplit B start f).length = specUnits B f := by
  simp [specSplit, specUnits]

theorem length_specPlan (B : Int) (start : Nat) (files : List FileInfo) :
    (specPlan B start files).length = specCount B files := by
  induction files generalizing start with
  | nil => rfl
  | cons f fs ih => simp [specPlan, specCount, length_specSplit, ih]

theorem splitFiles_exact {B : Int} (hB : 0 < B) (hB' : B < 2 ^ 31) (files : List FileInfo)
    (hL : ∀ f ∈ files, 0 ≤ f.size) (c : Nat) (pool : List ResourceItem)
    (hc : c + specCount B files < 2 ^ 31) :
    splitFiles B files (c : Int) pool =
      .ok (pool ++ specPlan B c files, ((c + specCount B files : Nat) : Int)) := by
  induction files generalizing c pool with
  | nil => simp [splitFiles, specPlan, specCount]
  | cons f fs ih =>
    have hcount : specCount B (f :: fs) = specUnits B f + specCount B fs := by
      simp [specCount]
    rw [hcount] at hc
    have hu : specUnits B f = (f.size / B).toNat + 1 := rfl
    rw [splitFiles, splitFile_exact hB hB' f (hL f (by simp)) c pool (by omega)]
    simp only
    rw [ih (fun g hg => hL g (by simp [hg])) (c + specUnits B f) _ (by omega)]
    simp only [specPlan, List.append_assoc, hcount, Nat.add_assoc]

theorem specSplit_getElem? (B : Int) (start : Nat) (f : FileInfo) (k : Nat) :
    (specSplit B start f)[k]? =
      if k < (f.size / B).toNat then
        some ⟨((start + k : Nat) : Int), 0, f.name, (k : Int) * B, B⟩
      else if k = (f.size / B).toNat then
        some ⟨((start + (f.size / B).toNat : Nat) : Int), 0, f.name, f.size / B * B,
          f.size - f.size / B * B⟩
      else none := by
  unfold specSplit
  by_cases h : k < (f.size / B).toNat
  · rw [List.getElem?_append_left (by simpa using h)]
    simp [h, List.getElem?_range h]
  · rw [List.getElem?_append_right (by simpa using h)]
    simp only [List.length_map, List.length_range, h, if_false]
    by_cases e : k = (f.size / B).toNat
    · simp [e]
    · have : k - (f.size / B).toNat ≠ 0 := by omega
      obtain ⟨j, hj⟩ := Nat.exists_eq_succ_of_ne_zero this
      simp [e, hj]

theorem specPlan_no (B : Int) (start : Nat) (files : List FileInfo) (k : Nat)
    (u : ResourceItem) (h : (specPlan B start files)[k]? = some u) :
    u.no = ((start + k : Nat) : Int) := by
  induction files generalizing start k with
  | nil => simp [specPlan] at h
  | cons f fs ih =>
    rw [specPlan] at h
    by_cases hk : k < (specSplit B start f).length
    · rw [List.getElem?_append_left hk, specSplit_getElem?] at h
      split at h
      · simp only [Option.some.injEq] at h
        rw [← h]
      · split at h
        · rename_i e
          simp only [Option.some.injEq] at h
          rw [← h, e]
        · simp at h
    · rw [List.getElem?_append_right (not_lt.1 hk)] at h
      rw [ih _ _ h, length_specSplit]
      rw [length_specSplit] at hk
      congr 1
      omega

end ResourceManager

/-- C1: starting from `IdManager(N)`, `N + 1` consecutive `GetItem` calls never
fault; the `k`-th one (`k = 0 .. N-1`) returns the snapshot with index `k`,
attempt 1 (state Allocated), and the last one returns `NULL`. The replies are
listed in call order, so the indices come out ascending, each once. -/
theorem C1_getItems_ascending (N : Nat) :
    (IdManager.new N).getItems (N + 1) =
      .ok ((List.range N).map (fun k : Nat => some ⟨(k : Int), 1, kResAllocated⟩) ++ [none],
        { resource_pool_ := (List.range N).map (fun k : Nat => ⟨(k : Int), 1, kResAllocated⟩)
          pending_res_ := [] }) := by
  have h := IdManager.getItems_todo ((List.range N).map (fun j : Nat => IdManager.fresh (j : Int))) []
  simp only [List.length_map, List.length_range, List.nil_append, List.length_nil,
    List.map_map] at h
  rw [← List.range_eq_range', ← IdManager.new_eq] at h
  have h2 := IdManager.getItems_snoc h (show IdManager.GetItem _ = .ok (none, _) from rfl)
  rw [h2]
  rfl

theorem IdManager.reachable_afterOne : IdManager.Reachable ((3 : Nat) : Int) IdManager.afterOne :=
  IdManager.Reachable.call IdManager.Reachable.ctor
    (show (IdManager.new ((3 : Nat) : Int)).step .getItem =
      .ok (.item (some ⟨0, 1, kResAllocated⟩), IdManager.afterOne) from rfl)

theorem IdManager.reachable_afterTwo : IdManager.Reachable ((3 : Nat) : Int) IdManager.afterTwo :=
  IdManager.Reachable.call IdManager.reachable_afterOne
    (show IdManager.afterOne.step .getItem =
      .ok (.item (some ⟨1, 1, kResAllocated⟩), IdManager.afterTwo) from rfl)

/-- C2: in a state reachable from `IdManager(N)`, if slot `i` (in range) is
Allocated with attempt count `a`, then `ReturnBackItem(i)` puts `i` at the
front of the pending deque, and the `GetItem` that follows returns the snapshot
of index `i` with attempt `a + 1`, ahead of every other pending slot, which all
stay in the deque. -/
theorem C2_return_then_get (N : Nat) (hN : N < 2 ^ 31) (m : IdManager)
    (hm : IdManager.Reachable (N : Int) m) (i : Nat) (hi : i < N) (cur : IdItem)
    (hcur : m.resource_pool_[i]? = some cur) (hst : cur.status = kResAllocated) :
    ∃ m1 m2, m.ReturnBackItem (i : Int) = .ok m1 ∧
      m1.pending_res_ = i :: m.pending_res_ ∧
      m1.GetItem = .ok (some ⟨(i : Int), cur.attempt + 1, kResAllocated⟩, m2) ∧
      m2.pending_res_ = m.pending_res_ := by
  have hsz := IdManager.toSizeT_index hN hi
  have hno := hm.inv.no_eq i cur hcur
  have hlt := IdManager.lt_of_getElem? hcur
  have hret := IdManager.returnBackItem_eval m (i : Int) cur (by rw [hsz]; exact hcur)
  rw [hsz] at hret
  simp only [hst, if_true] at hret
  refine ⟨_, ⟨(m.resource_pool_.set i { cur with status := kResPending }).set i
    ⟨(i : Int), cur.attempt + 1, kResAllocated⟩, m.pending_res_⟩, hret, rfl, ?_, rfl⟩
  simp only [IdManager.GetItem, List.getElem?_set_self hlt, hno]

/-- C2, the spec's scenario A up to the fifth call: `N = 3`, two `GetItem`
calls give `(0,1)` and `(1,1)`, then `ReturnBackItem(0)`, `GetItem` gives
`(0,2)` and the next `GetItem` gives `(2,1)`. -/
theorem C2_return_then_get_witness :
    (IdManager.new 3).getItems 2 =
        .ok ([some ⟨0, 1, kResAllocated⟩, some ⟨1, 1, kResAllocated⟩], IdManager.afterTwo) ∧
      (∃ m1 m2,
        IdManager.afterTwo.ReturnBackItem ((0 : Nat) : Int) = .ok m1 ∧
        m1.pending_res_ = (0 : Nat) :: IdManager.afterTwo.pending_res_ ∧
        m1.GetItem = .ok (some ⟨((0 : Nat) : Int), 1 + 1, kResAllocated⟩, m2) ∧
        m2.pending_res_ = IdManager.afterTwo.pending_res_) ∧
      IdManager.GetItem
          ⟨[⟨0, 2, kResAllocated⟩, ⟨1, 1, kResAllocated⟩, ⟨2, 0, kResPending⟩], [2]⟩ =
        .ok (some ⟨2, 1, kResAllocated⟩,
          ⟨[⟨0, 2, kResAllocated⟩, ⟨1, 1, kResAllocated⟩, ⟨2, 1, kResAllocated⟩], []⟩) :=
  ⟨rfl,
   C2_return_then_get 3 (by norm_num) IdManager.afterTwo IdManager.reachable_afterTwo
     0 (by norm_num) ⟨0, 1, kResAllocated⟩ rfl rfl,
   rfl⟩

/-- C3: in a state reachable from `IdManager(N)` and for `i` in range,
`FinishItem(i)` returns true exactly when slot `i` is Allocated; it then only
sets that slot to Done, and otherwise returns false and leaves the allocator
as it was. So `FinishItem` on the index a `GetItem` just returned gives true,
and repeating it at once gives false. -/
theorem C3_finish_iff_allocated (N : Nat) (hN : N < 2 ^ 31) (m : IdManager)
    (hm : IdManager.Reachable (N : Int) m) (i : Nat) (hi : i < N) :
    ∃ cur, m.resource_pool_[i]? = some cur ∧
      (cur.status = kResAllocated →
        m.FinishItem (i : Int) =
          .ok (true, { m with
            resource_pool_ := m.resource_pool_.set i { cur with status := kResDone } })) ∧
      (cur.status ≠ kResAllocated → m.FinishItem (i : Int) = .ok (false, m)) ∧
      (∀ it m1, m.GetItem = .ok (some it, m1) →
        ∃ m2, m1.FinishItem it.no = .ok (true, m2) ∧ m2.FinishItem it.no = .ok (false, m2)) := by
  have hsz := IdManager.toSizeT_index hN hi
  obtain ⟨cur, hcur, -⟩ := hm.inv.slot hi
  have hfin := IdManager.finishItem_eval m (i : Int) cur (by rw [hsz]; exact hcur)
  rw [hsz] at hfin
  refine ⟨cur, hcur, ?_, ?_, ?_⟩
  · intro hst
    rw [hfin, if_pos hst]
  · intro hst
    rw [hfin, if_neg hst]
  · intro it m1 hg
    obtain ⟨p, c, rest, -, hc, hit, hno, hp, rfl⟩ := hm.inv.getItem_some hg
    have hsp := IdManager.toSizeT_index hN hp
    have hlt := IdManager.lt_of_getElem? hc
    have hst : it.status = kResAllocated := by rw [hit]; rfl
    refine ⟨⟨(m.resource_pool_.set p it).set p { it with status := kResDone }, rest⟩, ?_, ?_⟩
    · rw [IdManager.finishItem_eval _ it.no it
        (by rw [hno, hsp]; exact List.getElem?_set_self hlt), if_pos hst, hno, hsp]
    · rw [IdManager.finishItem_eval _ it.no { it with status := kResDone }
        (by rw [hno, hsp]; exact List.getElem?_set_self (by simpa using hlt)), if_neg (by simp)]

/-- C3 at `IdManager(3)` after one `GetItem`, index 0: the slot is Allocated,
`FinishItem(0)` returns true and a second `FinishItem(0)` returns false. -/
theorem C3_finish_iff_allocated_witness :
    (∃ cur, IdManager.afterOne.resource_pool_[(0 : Nat)]? = some cur ∧
      (cur.status = kResAllocated →
        IdManager.afterOne.FinishItem ((0 : Nat) : Int) =
          .ok (true, { IdManager.afterOne with
            resource_pool_ :=
              IdManager.afterOne.resource_pool_.set 0 { cur with status := kResDone } })) ∧
      (cur.status ≠ kResAllocated →
        IdManager.afterOne.FinishItem ((0 : Nat) : Int) = .ok (false, IdManager.afterOne)) ∧
      (∀ it m1, IdManager.afterOne.GetItem = .ok (some it, m1) →
        ∃ m2, m1.FinishItem it.no = .ok (true, m2) ∧ m2.FinishItem it.no = .ok (false, m2))) ∧
    IdManager.afterOne.FinishItem 0 =
      .ok (true, ⟨[⟨0, 1, kResDone⟩, ⟨1, 0, kResPending⟩, ⟨2, 0, kResPending⟩], [1, 2]⟩) ∧
    IdManager.FinishItem ⟨[⟨0, 1, kResDone⟩, ⟨1, 0, kResPending⟩, ⟨2, 0, kResPending⟩], [1, 2]⟩ 0 =
      .ok (false, ⟨[⟨0, 1, kResDone⟩, ⟨1, 0, kResPending⟩, ⟨2, 0, kResPending⟩], [1, 2]⟩) :=
  ⟨C3_finish_iff_allocated 3 (by norm_num) IdManager.afterOne IdManager.reachable_afterOne 0
    (by norm_num), rfl, rfl⟩

/-- C4: in a state reachable from `IdManager(N)` and for `i` in range,
`GetCertainItem(i)` succeeds exactly when slot `i` is Allocated; it then returns
the snapshot with index `i` and the old attempt plus 1, keeps the slot
Allocated and the pending deque as it was, and a second call returns the old
attempt plus 2; when the slot is not Allocated it returns `NULL` and leaves the
allocator as it was. -/
theorem C4_getCertainItem (N : Nat) (hN : N < 2 ^ 31) (m : IdManager)
    (hm : IdManager.Reachable (N : Int) m) (i : Nat) (hi : i < N) :
    ∃ cur, m.resource_pool_[i]? = some cur ∧
      (cur.status = kResAllocated →
        ∃ m2,
          m.GetCertainItem (i : Int) =
            .ok (some ⟨(i : Int), cur.attempt + 1, kResAllocated⟩,
              { resource_pool_ :=
                  m.resource_pool_.set i ⟨(i : Int), cur.attempt + 1, kResAllocated⟩
                pending_res_ := m.pending_res_ }) ∧
          IdManager.GetCertainItem
              { resource_pool_ :=
                  m.resource_pool_.set i ⟨(i : Int), cur.attempt + 1, kResAllocated⟩
                pending_res_ := m.pending_res_ } (i : Int) =
            .ok (some ⟨(i : Int), cur.attempt + 2, kResAllocated⟩, m2) ∧
          m2.pending_res_ = m.pending_res_) ∧
      (cur.status ≠ kResAllocated → m.GetCertainItem (i : Int) = .ok (none, m)) := by
  have hsz := IdManager.toSizeT_index hN hi
  obtain ⟨cur, hcur, hno⟩ := hm.inv.slot hi
  have hlt := IdManager.lt_of_getElem? hcur
  have hget := IdManager.getCertainItem_eval m (i : Int) cur (by rw [hsz]; exact hcur)
  rw [hsz] at hget
  refine ⟨cur, hcur, ?_, ?_⟩
  · intro hst
    refine ⟨⟨(m.resource_pool_.set i ⟨(i : Int), cur.attempt + 1, kResAllocated⟩).set i
      ⟨(i : Int), cur.attempt + 2, kResAllocated⟩, m.pending_res_⟩, ?_, ?_, rfl⟩
    · rw [hget, if_pos hst, ← hno, ← hst]
    · rw [IdManager.getCertainItem_eval _ (i : Int)
        ⟨(i : Int), cur.attempt + 1, kResAllocated⟩
        (by rw [hsz]; exact List.getElem?_set_self hlt), if_pos rfl, hsz]
  · intro hst
    rw [hget, if_neg hst]

/-- C4 at `IdManager(3)` after one `GetItem`, index 0 (Allocated, attempt 1):
two `GetCertainItem(0)` calls return attempts 2 and 3. -/
theorem C4_getCertainItem_witness :
    (∃ cur, IdManager.afterOne.resource_pool_[(0 : Nat)]? = some cur ∧
      (cur.status = kResAllocated →
        ∃ m2,
          IdManager.afterOne.GetCertainItem ((0 : Nat) : Int) =
            .ok (some ⟨((0 : Nat) : Int), cur.attempt + 1, kResAllocated⟩,
              { resource_pool_ :=
                  IdManager.afterOne.resource_pool_.set 0
                    ⟨((0 : Nat) : Int), cur.attempt + 1, kResAllocated⟩
                pending_res_ := IdManager.afterOne.pending_res_ }) ∧
          IdManager.GetCertainItem
              { resource_pool_ :=
                  IdManager.afterOne.resource_pool_.set 0
                    ⟨((0 : Nat) : Int), cur.attempt + 1, kResAllocated⟩
                pending_res_ := IdManager.afterOne.pending_res_ } ((0 : Nat) : Int) =
            .ok (some ⟨((0 : Nat) : Int), cur.attempt + 2, kResAllocated⟩, m2) ∧
          m2.pending_res_ = IdManager.afterOne.pending_res_) ∧
      (cur.status ≠ kResAllocated →
        IdManager.afterOne.GetCertainItem ((0 : Nat) : Int) = .ok (none, IdManager.afterOne))) ∧
    IdManager.afterOne.GetCertainItem 0 =
      .ok (some ⟨0, 2, kResAllocated⟩,
        ⟨[⟨0, 2, kResAllocated⟩, ⟨1, 0, kResPending⟩, ⟨2, 0, kResPending⟩], [1, 2]⟩) ∧
    IdManager.afterOne.GetCertainItem 1 = .ok (none, IdManager.afterOne) :=
  ⟨C4_getCertainItem 3 (by norm_num) IdManager.afterOne IdManager.reachable_afterOne 0
    (by norm_num), rfl, rfl⟩

/-- C5: in a state reachable from `IdManager(N)`, `ReturnBackItem(i)` on an
in-range slot that is not Allocated (Pending or Done) returns with the
allocator exactly as it was: no state, attempt count or deque entry changes.
In particular, after a successful `FinishItem(i)` a `ReturnBackItem(i)` changes
nothing and slot `i` is still Done. -/
theorem C5_return_not_allocated (N : Nat) (hN : N < 2 ^ 31) (m : IdManager)
    (hm : IdManager.Reachable (N : Int) m) (i : Nat) (hi : i < N) :
    ∃ cur, m.resource_pool_[i]? = some cur ∧
      (cur.status ≠ kResAllocated → m.ReturnBackItem (i : Int) = .ok m) ∧
      (∀ m1, m.FinishItem (i : Int) = .ok (true, m1) →
        m1.ReturnBackItem (i : Int) = .ok m1 ∧
        m1.resource_pool_[i]? = some { cur with status := kResDone }) := by
  have hsz := IdManager.toSizeT_index hN hi
  obtain ⟨cur, hcur, hno⟩ := hm.inv.slot hi
  have hlt := IdManager.lt_of_getElem? hcur
  have hret := IdManager.returnBackItem_eval m (i : Int) cur (by rw [hsz]; exact hcur)
  have hfin := IdManager.finishItem_eval m (i : Int) cur (by rw [hsz]; exact hcur)
  rw [hsz] at hfin
  refine ⟨cur, hcur, ?_, ?_⟩
  · intro hst
    rw [hret, if_neg hst]
  · intro m1 h1
    rw [hfin] at h1
    split at h1
    · simp only [Except.ok.injEq, Prod.mk.injEq, true_and] at h1
      subst h1
      have hc : (m.resource_pool_.set i { cur with status := kResDone })[i]? =
          some { cur with status := kResDone } := List.getElem?_set_self hlt
      refine ⟨?_, hc⟩
      rw [IdManager.returnBackItem_eval _ (i : Int) { cur with status := kResDone }
        (by rw [hsz]; exact hc), if_neg (by simp)]
    · simp at h1

/-- C5 at `IdManager(3)` after one `GetItem`, index 1 (Pending): the call
returns the same allocator, the deque still holds 1 once. -/
theorem C5_return_not_allocated_witness :
    (∃ cur, IdManager.afterOne.resource_pool_[(1 : Nat)]? = some cur ∧
      (cur.status ≠ kResAllocated →
        IdManager.afterOne.ReturnBackItem ((1 : Nat) : Int) = .ok IdManager.afterOne) ∧
      (∀ m1, IdManager.afterOne.FinishItem ((1 : Nat) : Int) = .ok (true, m1) →
        m1.ReturnBackItem ((1 : Nat) : Int) = .ok m1 ∧
        m1.resource_pool_[(1 : Nat)]? = some { cur with status := kResDone })) ∧
    IdManager.afterOne.ReturnBackItem 1 = .ok IdManager.afterOne ∧
    IdManager.afterOne.pending_res_ = [1, 2] ∧
    IdManager.ReturnBackItem
        ⟨[⟨0, 1, kResDone⟩, ⟨1, 0, kResPending⟩, ⟨2, 0, kResPending⟩], [1, 2]⟩ 0 =
      .ok ⟨[⟨0, 1, kResDone⟩, ⟨1, 0, kResPending⟩, ⟨2, 0, kResPending⟩], [1, 2]⟩ :=
  ⟨C5_return_not_allocated 3 (by norm_num) IdManager.afterOne IdManager.reachable_afterOne 1
    (by norm_num), rfl, rfl, rfl⟩

theorem ResourceManager.new_exact {B : Int} (hB : 0 < B) (hB' : B < 2 ^ 31)
    (files : List FileInfo) (hL : ∀ f ∈ files, 0 ≤ f.size) (hc : specCount B files < 2 ^ 31) :
    ResourceManager.new files B =
      .ok { resource_pool_ := specPlan B 0 files
            manager_ := IdManager.new (specCount B files) } := by
  have h := ResourceManager.splitFiles_exact hB hB' files hL 0 [] (by omega)
  have hz : wrapInt32 (([] : List ResourceItem).length) = ((0 : Nat) : Int) := by
    simp [wrapInt32]
  unfold ResourceManager.new
  simp only [hz, h, List.nil_append, ResourceManager.length_specPlan]
  rw [wrapInt32_of_range (by omega) (by exact_mod_cast hc)]

theorem ResourceManager.new_single {B : Int} (hB : 0 < B) (hB' : B < 2 ^ 31) (f : FileInfo)
    (hL : 0 ≤ f.size) (hq : f.size / B + 1 < 2 ^ 31) :
    ∃ r, ResourceManager.new [f] B = .ok r ∧ r.resource_pool_ = specSplit B 0 f := by
  have hnat := (ResourceManager.split_bounds hB hB' hL (by omega)).2.1
  have h := ResourceManager.splitFile_exact hB hB' f hL 0 [] (by omega)
  have hz : wrapInt32 (([] : List ResourceItem).length) = ((0 : Nat) : Int) := by
    simp [wrapInt32]
  unfold ResourceManager.new
  simp only [hz, ResourceManager.splitFiles, h, List.nil_append]
  exact ⟨_, rfl, rfl⟩

/-- C6, the claim as stated fails: for one source of length `2^31` and block
size 1 the 32-bit `blocks` wraps to `-2^31`, the loop over full units does not
run, and the constructor emits a single unit (offset `-2^31`, length 0), not
`floor(L/B) + 1 = 2^31 + 1` units. -/
theorem C6_split_law_counterexample :
    ∃ r, ResourceManager.new [⟨"a", 2 ^ 31⟩] 1 = .ok r ∧
      r.resource_pool_ = [⟨0, 0, "a", -2 ^ 31, 0⟩] ∧
      r.resource_pool_.length ≠ ((2 : Int) ^ 31 / 1).toNat + 1 :=
  ⟨_, rfl, rfl, by decide⟩

/-- C6, amended: for one source of length `L ≥ 0` and a block size
`0 < B < 2^31` with `floor(L/B) + 1 < 2^31` (the unit count fits the `int`
counter, also at its last increment), the constructor emits the specification's
split: `floor(L/B) + 1` units; unit `k < floor(L/B)` has index `k`, offset
`k·B`, length `B`; the last has offset `floor(L/B)·B` and length
`L − floor(L/B)·B`, which is 0 when `B` divides `L`; the first offset is 0 and
each unit ends where the next begins. -/
theorem C6_split_law_int_range (name : String) (L B : Int) (hB : 0 < B) (hB' : B < 2 ^ 31)
    (hL : 0 ≤ L) (hq : L / B + 1 < 2 ^ 31) :
    ∃ r, ResourceManager.new [⟨name, L⟩] B = .ok r ∧
      r.resource_pool_ = specSplit B 0 ⟨name, L⟩ ∧
      r.resource_pool_.length = (L / B).toNat + 1 ∧
      (∀ k : Nat, (k : Int) < L / B →
        r.resource_pool_[k]? = some ⟨(k : Int), 0, name, (k : Int) * B, B⟩) ∧
      r.resource_pool_[(L / B).toNat]? =
        some ⟨L / B, 0, name, L / B * B, L - L / B * B⟩ ∧
      (B ∣ L → L - L / B * B = 0) ∧
      (∀ u, r.resource_pool_[0]? = some u → u.offset = 0) ∧
      (∀ (k : Nat) (u v : ResourceItem), r.resource_pool_[k]? = some u →
        r.resource_pool_[k + 1]? = some v → u.offset + u.size = v.offset) := by
  obtain ⟨r, hr, hpool⟩ := ResourceManager.new_single hB hB' ⟨name, L⟩ hL hq
  obtain ⟨h0, hnat, -⟩ := ResourceManager.split_bounds hB hB' hL (by omega)
  have hget := ResourceManager.specSplit_getElem? B 0 ⟨name, L⟩
  simp only [Nat.zero_add] at hget
  refine ⟨r, hr, hpool, ?_, ?_, ?_, ?_, ?_, ?_⟩
  · rw [hpool, ResourceManager.length_specSplit]
    rfl
  · intro k hk
    rw [hpool, hget, if_pos (by omega)]
  · rw [hpool, hget, if_neg (lt_irrefl _), if_pos rfl, hnat]
  · intro hdvd
    rw [Int.ediv_mul_cancel hdvd]
    omega
  · intro u hu
    rw [hpool, hget] at hu
    split at hu
    · simp only [Option.some.injEq] at hu
      rw [← hu]
      simp
    · rename_i hlt
      split at hu
      · rename_i e
        simp only [Option.some.injEq] at hu
        rw [← hu]
        have : L / B = 0 := by omega
        simp [this]
      · simp at hu
  · intro k u v hu hv
    rw [hpool, hget] at hu hv
    have hk : k < (L / B).toNat := by
      by_contra hk
      simp only [if_neg (show ¬ k + 1 < (L / B).toNat by omega),
        if_neg (show ¬ k + 1 = (L / B).toNat by omega)] at hv
      simp at hv
    rw [if_pos hk] at hu
    simp only [Option.some.injEq] at hu
    rw [← hu]
    split at hv
    · simp only [Option.some.injEq] at hv
      rw [← hv]
      push_cast
      ring
    · rw [if_pos (by omega)] at hv
      simp only [Option.some.injEq] at hv
      rw [← hv]
      have : ((k : Int) + 1) = L / B := by omega
      simp only
      rw [← this]
      ring

/-- C6 amended, at the spec's scenario B: a source of 250 bytes and block size
100 give the units `(0,100)`, `(100,100)`, `(200,50)`. -/
theorem C6_split_law_int_range_witness :
    (∃ r, ResourceManager.new [⟨"a", 250⟩] 100 = .ok r ∧
      r.resource_pool_ = specSplit 100 0 ⟨"a", 250⟩ ∧
      r.resource_pool_.length = ((250 : Int) / 100).toNat + 1 ∧
      (∀ k : Nat, (k : Int) < 250 / 100 →
        r.resource_pool_[k]? = some ⟨(k : Int), 0, "a", (k : Int) * 100, 100⟩) ∧
      r.resource_pool_[((250 : Int) / 100).toNat]? =
        some ⟨250 / 100, 0, "a", 250 / 100 * 100, 250 - 250 / 100 * 100⟩ ∧
      ((100 : Int) ∣ 250 → (250 : Int) - 250 / 100 * 100 = 0) ∧
      (∀ u, r.resource_pool_[0]? = some u → u.offset = 0) ∧
      (∀ (k : Nat) (u v : ResourceItem), r.resource_pool_[k]? = some u →
        r.resource_pool_[k + 1]? = some v → u.offset + u.size = v.offset)) ∧
    specSplit 100 0 ⟨"a", 250⟩ =
      [⟨0, 0, "a", 0, 100⟩, ⟨1, 0, "a", 100, 100⟩, ⟨2, 0, "a", 200, 50⟩] :=
  ⟨C6_split_law_int_range "a" 250 100 (by norm_num) (by norm_num) (by norm_num) (by norm_num),
    rfl⟩

/-- C7, the claim as stated fails: for the sources `a` of `100·2^31` bytes and
`b` of 250 bytes with block size 100, the 32-bit `blocks` of `a` wraps to
`-2^31`; the pool gets 4 units and the allocator 4 slots, not the sum
`(2^31 + 1) + 3` of the per-source counts. -/
theorem C7_plan_counterexample :
    ∃ r, ResourceManager.new [⟨"a", 100 * 2 ^ 31⟩, ⟨"b", 250⟩] 100 = .ok r ∧
      r.resource_pool_ =
        [⟨0, 0, "a", -(100 * 2 ^ 31), 0⟩, ⟨1, 0, "b", 0, 100⟩, ⟨2, 0, "b", 100, 100⟩,
          ⟨3, 0, "b", 200, 50⟩] ∧
      r.manager_ = IdManager.new 4 ∧
      r.resource_pool_.length ≠ specCount 100 [⟨"a", 100 * 2 ^ 31⟩, ⟨"b", 250⟩] :=
  ⟨_, rfl, rfl, rfl, by decide⟩

/-- C7, amended: for sources of lengths `≥ 0` and a block size `0 < B < 2^31`
such that the total unit count, the sum of `floor(L_j/B) + 1`, is below `2^31`,
the constructor's unit list is the specification's plan (the per-source splits
concatenated in listing order, each unit carrying its source's name), the unit
at position `k` has index `k`, the list has the total count as its length, and
the allocator is `IdManager(total count)`, which has that many slots. -/
theorem C7_plan_int_range (files : List FileInfo) (B : Int) (hB : 0 < B) (hB' : B < 2 ^ 31)
    (hL : ∀ f ∈ files, 0 ≤ f.size) (hc : specCount B files < 2 ^ 31) :
    ResourceManager.new files B =
      .ok { resource_pool_ := specPlan B 0 files
            manager_ := IdManager.new (specCount B files) } ∧
    (specPlan B 0 files).length = specCount B files ∧
    (∀ (k : Nat) (u : ResourceItem), (specPlan B 0 files)[k]? = some u → u.no = (k : Int)) ∧
    (∀ (start : Nat) (f : FileInfo), ∀ u ∈ specSplit B start f, u.input_file = f.name) ∧
    (IdManager.new (specCount B files)).resource_pool_.length = specCount B files := by
  refine ⟨ResourceManager.new_exact hB hB' files hL hc,
    ResourceManager.length_specPlan B 0 files, ?_, ?_, ?_⟩
  · intro k u hu
    rw [ResourceManager.specPlan_no B 0 files k u hu, Nat.zero_add]
  · intro start f u hu
    simp only [specSplit, List.mem_append, List.mem_map, List.mem_range, List.mem_singleton] at hu
    rcases hu with ⟨k, -, rfl⟩ | rfl <;> rfl
  · rw [IdManager.new_eq]
    simp

/-- C7 amended, at the spec's scenario B: a source `a` of 250 bytes gets the
indices 0, 1, 2 and a second source `b` of 100 bytes continues at 3. -/
theorem C7_plan_int_range_witness :
    (ResourceManager.new [⟨"a", 250⟩, ⟨"b", 100⟩] 100 =
      .ok { resource_pool_ := specPlan 100 0 [⟨"a", 250⟩, ⟨"b", 100⟩]
            manager_ := IdManager.new (specCount 100 [⟨"a", 250⟩, ⟨"b", 100⟩]) } ∧
    (specPlan 100 0 [⟨"a", 250⟩, ⟨"b", 100⟩]).length = specCount 100 [⟨"a", 250⟩, ⟨"b", 100⟩] ∧
    (∀ (k : Nat) (u : ResourceItem),
      (specPlan 100 0 [⟨"a", 250⟩, ⟨"b", 100⟩])[k]? = some u → u.no = (k : Int)) ∧
    (∀ (start : Nat) (f : FileInfo), ∀ u ∈ specSplit 100 start f, u.input_file = f.name) ∧
    (IdManager.new (specCount 100 [⟨"a", 250⟩, ⟨"b", 100⟩])).resource_pool_.length =
      specCount 100 [⟨"a", 250⟩, ⟨"b", 100⟩]) ∧
    specPlan 100 0 [⟨"a", 250⟩, ⟨"b", 100⟩] =
      [⟨0, 0, "a", 0, 100⟩, ⟨1, 0, "a", 100, 100⟩, ⟨2, 0, "a", 200, 50⟩,
        ⟨3, 0, "b", 0, 100⟩, ⟨4, 0, "b", 100, 0⟩] ∧
    specCount 100 [⟨"a", 250⟩, ⟨"b", 100⟩] = 5 :=
  ⟨C7_plan_int_range [⟨"a", 250⟩, ⟨"b", 100⟩] 100 (by norm_num) (by norm_num)
    (by intro f hf; simp only [List.mem_cons, List.mem_singleton, List.not_mem_nil,
          or_false] at hf; rcases hf with rfl | rfl <;> norm_num)
    (by decide),
    rfl, rfl⟩

theorem IdManager.Inv.getItem_ok {N : Nat} {m : IdManager} (h : IdManager.Inv N m) :
    ∃ a, m.GetItem = .ok a := by
  unfold IdManager.GetItem
  split
  · exact ⟨_, rfl⟩
  · rename_i p rest hp
    have hlt : p < m.resource_pool_.length := by
      rw [h.len]
      exact h.pending_lt p (by simp [hp])
    rw [List.getElem?_eq_getElem hlt]
    exact ⟨_, rfl⟩

theorem ResourceManager.PInv.static_eq {r0 r : ResourceManager} (h : ResourceManager.PInv r0 r) :
    r.resource_pool_.map ResourceManager.static = r0.resource_pool_.map ResourceManager.static := by
  have := congrArg (List.map Prod.snd) h.same
  simpa [List.map_map, Function.comp, ResourceManager.frozen] using this

theorem ResourceManager.planA_new :
    ResourceManager.new [⟨"a", 250⟩] 100 = .ok ResourceManager.planA := rfl

theorem ResourceManager.reachable_planA1 :
    ResourceManager.Reachable ResourceManager.planA ResourceManager.planA1 :=
  ResourceManager.Reachable.call ResourceManager.Reachable.start
    (show ResourceManager.planA.step .getItem =
      .ok (.item (some ⟨0, 1, "a", 0, 100⟩), ResourceManager.planA1) from rfl)

/-- C8: in every state `r` a planner built by the constructor reaches by
sequential calls, `GetItem` and `GetCertainItem(no)` succeed, return `NULL` or
fault exactly as the allocator's call does (and the allocator's `GetItem` never
faults); a returned unit carries the index and post-increment attempt of the
allocator's snapshot and the source file, offset and length the constructor
stored for that index; no call changes any stored source file, offset or
length; `ReturnBackItem` and `FinishItem` are the allocator's calls on the same
index, with the allocator's result. -/
theorem C8_planner_enrichment (files : List FileInfo) (block_size : Int)
    (r0 r : ResourceManager) (hnew : ResourceManager.new files block_size = .ok r0)
    (hr : ResourceManager.Reachable r0 r) :
    (∃ a, r.manager_.GetItem = .ok a) ∧
    (∀ m', r.manager_.GetItem = .ok (none, m') →
      r.GetItem = .ok (none, { r with manager_ := m' })) ∧
    (∀ it m', r.manager_.GetItem = .ok (some it, m') →
      ∃ u0 r', r0.resource_pool_[it.no.toNat]? = some u0 ∧
        r.GetItem = .ok (some ⟨it.no, it.attempt, u0.input_file, u0.offset, u0.size⟩, r') ∧
        r'.manager_ = m') ∧
    (∀ no e, r.manager_.GetCertainItem no = .error e → r.GetCertainItem no = .error e) ∧
    (∀ no m', r.manager_.GetCertainItem no = .ok (none, m') →
      r.GetCertainItem no = .ok (none, { r with manager_ := m' })) ∧
    (∀ no it m', r.manager_.GetCertainItem no = .ok (some it, m') →
      ∃ u0 r', r0.resource_pool_[it.no.toNat]? = some u0 ∧ it.no = (toSizeT no : Int) ∧
        r.GetCertainItem no =
          .ok (some ⟨it.no, it.attempt, u0.input_file, u0.offset, u0.size⟩, r') ∧
        r'.manager_ = m') ∧
    r.resource_pool_.map ResourceManager.static = r0.resource_pool_.map ResourceManager.static ∧
    (∀ c x r', r.step c = .ok (x, r') →
      r'.resource_pool_.map ResourceManager.static = r.resource_pool_.map ResourceManager.static) ∧
    (∀ no, r.ReturnBackItem no =
      (r.manager_.ReturnBackItem no).map fun m' => { r with manager_ := m' }) ∧
    (∀ no, r.FinishItem no =
      (r.manager_.FinishItem no).map fun x => (x.1, { r with manager_ := x.2 })) := by
  have hinv := hr.pinv hnew
  refine ⟨hinv.alloc.getItem_ok, fun m' h => ResourceManager.getItem_of_none h, ?_,
    fun no e h => ResourceManager.getCertainItem_of_error h,
    fun no m' h => ResourceManager.getCertainItem_of_none h, ?_, hinv.static_eq, ?_, ?_, ?_⟩
  · intro it m' h
    obtain ⟨u0, hu0, hev, -⟩ := ResourceManager.getItem_of_some hinv h
    exact ⟨u0, _, hu0, hev, rfl⟩
  · intro no it m' h
    obtain ⟨u0, hu0, hno, hev, -⟩ := ResourceManager.getCertainItem_of_some hinv h
    exact ⟨u0, _, hu0, hno, hev, rfl⟩
  · intro c x r' hs
    rw [(hinv.preserved hs).static_eq, hinv.static_eq]
  · intro no
    unfold ResourceManager.ReturnBackItem
    cases r.manager_.ReturnBackItem no <;> rfl
  · intro no
    unfold ResourceManager.FinishItem
    cases r.manager_.FinishItem no <;> rfl

/-- C8 on the planner of one 250-byte source with block size 100, after one
`GetItem`: the allocator's next `GetItem` gives slot `(1, 1)`, so the planner's
gives the unit `(1, 1, "a", 100, 100)`. -/
theorem C8_planner_enrichment_witness :
    ResourceManager.new [⟨"a", 250⟩] 100 = .ok ResourceManager.planA ∧
    ResourceManager.Reachable ResourceManager.planA ResourceManager.planA1 ∧
    (∃ u0 r', ResourceManager.planA.resource_pool_[(1 : Int).toNat]? = some u0 ∧
      ResourceManager.planA1.GetItem =
        .ok (some ⟨1, 1, u0.input_file, u0.offset, u0.size⟩, r') ∧
      r'.manager_ = IdManager.afterTwo) ∧
    ResourceManager.planA1.GetItem =
      .ok (some ⟨1, 1, "a", 100, 100⟩,
        { resource_pool_ := [⟨0, 1, "a", 0, 100⟩, ⟨1, 1, "a", 100, 100⟩, ⟨2, 0, "a", 200, 50⟩]
          manager_ := IdManager.afterTwo }) :=
  ⟨rfl, ResourceManager.reachable_planA1,
    (C8_planner_enrichment [⟨"a", 250⟩] 100 ResourceManager.planA ResourceManager.planA1
      ResourceManager.planA_new ResourceManager.reachable_planA1).2.2.1
      ⟨1, 1, kResAllocated⟩ IdManager.afterTwo rfl,
    rfl⟩

/-- C9: in every state `r` a planner built by the constructor reaches by
sequential calls, and for every `i` below the allocator's slot count,
`CheckCertainItem(i)` leaves the planner and its allocator exactly as they were
and yields the unit at position `i`: its index is `i`, its source file, offset
and length are those stored at construction, and its attempt count is the
attempt count of the allocator's slot `i`. -/
theorem C9_check_reads_only (files : List FileInfo) (block_size : Int)
    (r0 r : ResourceManager) (hnew : ResourceManager.new files block_size = .ok r0)
    (hr : ResourceManager.Reachable r0 r) (i : Nat)
    (hi : i < r.manager_.resource_pool_.length) :
    ∃ u u0 c, r.CheckCertainItem (i : Int) = .ok (i, r) ∧
      r.resource_pool_[i]? = some u ∧ r0.resource_pool_[i]? = some u0 ∧
      r.manager_.resource_pool_[i]? = some c ∧
      u.no = (i : Int) ∧ u.input_file = u0.input_file ∧ u.offset = u0.offset ∧
      u.size = u0.size ∧ u.attempt = c.attempt := by
  have hinv := hr.pinv hnew
  obtain ⟨u, u0, hu, hu0, hno, hfz, hsz⟩ := hinv.unit hi
  have hc : r.manager_.resource_pool_[i]? = some r.manager_.resource_pool_[i] :=
    List.getElem?_eq_getElem hi
  have hcno := hinv.alloc.no_eq i _ hc
  have hsync := hinv.sync i hi
  rw [hu, hc] at hsync
  simp only [Option.map_some', Option.some.injEq] at hsync
  simp only [ResourceManager.frozen, ResourceManager.static, Prod.mk.injEq] at hfz
  refine ⟨u, u0, _, ?_, hu, hu0, hc, hno, hfz.2.1, hfz.2.2.1, hfz.2.2.2, hsync⟩
  have hchk := IdManager.checkCertainItem_eval r.manager_ (i : Int) _ (by rw [hsz]; exact hc)
  simp only [ResourceManager.CheckCertainItem, hchk, hsz, hc, hcno, hu]

/-- C9 on the planner of one 250-byte source with block size 100, after one
`GetItem`, at index 0: the call returns position 0 and the same planner; the
unit there is `(0, 1, "a", 0, 100)` and the allocator's slot 0 has attempt 1. -/
theorem C9_check_reads_only_witness :
    ResourceManager.new [⟨"a", 250⟩] 100 = .ok ResourceManager.planA ∧
    ResourceManager.Reachable ResourceManager.planA ResourceManager.planA1 ∧
    (0 : Nat) < ResourceManager.planA1.manager_.resource_pool_.length ∧
    (∃ u u0 c, ResourceManager.planA1.CheckCertainItem ((0 : Nat) : Int) =
        .ok ((0 : Nat), ResourceManager.planA1) ∧
      ResourceManager.planA1.resource_pool_[(0 : Nat)]? = some u ∧
      ResourceManager.planA.resource_pool_[(0 : Nat)]? = some u0 ∧
      ResourceManager.planA1.manager_.resource_pool_[(0 : Nat)]? = some c ∧
      u.no = ((0 : Nat) : Int) ∧ u.input_file = u0.input_file ∧ u.offset = u0.offset ∧
      u.size = u0.size ∧ u.attempt = c.attempt) ∧
    ResourceManager.planA1.resource_pool_[(0 : Nat)]? = some ⟨0, 1, "a", 0, 100⟩ ∧
    ResourceManager.planA1.manager_.resource_pool_[(0 : Nat)]? = some ⟨0, 1, kResAllocated⟩ :=
  ⟨rfl, ResourceManager.reachable_planA1, by decide,
    C9_check_reads_only [⟨"a", 250⟩] 100 ResourceManager.planA ResourceManager.planA1
      ResourceManager.planA_new ResourceManager.reachable_planA1 0 (by decide),
    rfl, rfl⟩

/-- C10: the range test of `GetCertainItem` and `FinishItem` is `n > size`, not
`n >= size`. On `IdManager(2)` the indices 3 and -1 are turned away (`NULL`,
false, allocator unchanged), but the index 2, equal to the pool size, passes
the test and both calls read `resource_pool_[2]`, one past the end. -/
theorem C10_index_equal_size_reads_past_end :
    (IdManager.new 2).resource_pool_.length = 2 ∧
    (IdManager.new 2).GetCertainItem 2 = .error .outOfBounds ∧
    (IdManager.new 2).FinishItem 2 = .error .outOfBounds ∧
    (IdManager.new 2).GetCertainItem 3 = .ok (none, IdManager.new 2) ∧
    (IdManager.new 2).FinishItem 3 = .ok (false, IdManager.new 2) ∧
    (IdManager.new 2).GetCertainItem (-1) = .ok (none, IdManager.new 2) ∧
    (IdManager.new 2).FinishItem (-1) = .ok (false, IdManager.new 2) := by
  refine ⟨rfl, rfl, rfl, rfl, rfl, ?_, ?_⟩
  · have h : toSizeT (-1) > (IdManager.new 2).resource_pool_.length := by decide
    simp only [IdManager.GetCertainItem, h, if_true]
  · have h : toSizeT (-1) > (IdManager.new 2).resource_pool_.length := by decide
    simp only [IdManager.FinishItem, h, if_true]

/-- In a well-formed allocator `ReturnBackItem` reads the pool beyond its end
for every index that is not a position of the pool. -/
theorem IdManager.returnBackItem_outside (m : IdManager) (no : Int)
    (h : m.resource_pool_.length ≤ toSizeT no) : m.ReturnBackItem no = .error .outOfBounds := by
  simp only [IdManager.ReturnBackItem, List.getElem?_eq_none h]

/-- C11: `ReturnBackItem` logs the out-of-range index but does not return: on
`IdManager(2)` the indices 2, 5 and -1 all reach `resource_pool_[n]`, a read
beyond the end of the pool, whereas the sibling `FinishItem(5)` returns false
with the allocator unchanged. -/
theorem C11_return_out_of_range_reads_pool :
    (IdManager.new 2).resource_pool_.length = 2 ∧
    (IdManager.new 2).ReturnBackItem 2 = .error .outOfBounds ∧
    (IdManager.new 2).ReturnBackItem 5 = .error .outOfBounds ∧
    (IdManager.new 2).ReturnBackItem (-1) = .error .outOfBounds ∧
    (IdManager.new 2).FinishItem 5 = .ok (false, IdManager.new 2) :=
  ⟨rfl, rfl, rfl, IdManager.returnBackItem_outside _ _ (by decide), rfl⟩

theorem IdManager.step_getCertainItem {m : IdManager} {no : Int} {a : Option IdItem × IdManager}
    (h : m.GetCertainItem no = .ok a) : m.step (.getCertainItem no) = .ok (.item a.1, a.2) := by
  simp only [IdManager.step, h, Except.map]

theorem IdManager.step_returnBackItem {m m' : IdManager} {no : Int}
    (h : m.ReturnBackItem no = .ok m') : m.step (.returnBackItem no) = .ok (.done, m') := by
  simp only [IdManager.step, h, Except.map]

theorem IdManager.step_finishItem {m : IdManager} {no : Int} {a : Bool × IdManager}
    (h : m.FinishItem no = .ok a) : m.step (.finishItem no) = .ok (.flag a.1, a.2) := by
  simp only [IdManager.step, h, Except.map]

theorem IdManager.step_getItem {m : IdManager} {a : Option IdItem × IdManager}
    (h : m.GetItem = .ok a) : m.step .getItem = .ok (.item a.1, a.2) := by
  simp only [IdManager.step, h, Except.map]

/-- C12: in a state reachable from `IdManager(N)`, for in-range `i` and any
other in-range `j`, each of `GetCertainItem(i)`, `ReturnBackItem(i)` and
`FinishItem(i)` returns (without fault) and leaves slot `j` (index, attempt
count, state) as it was; `j` is in the pending deque after the call exactly
when it was before, and the deque without the entry `i` is the same list. -/
theorem C12_other_slots_untouched (N : Nat) (hN : N < 2 ^ 31) (m : IdManager)
    (hm : IdManager.Reachable (N : Int) m) (i j : Nat) (hi : i < N) (hj : j < N) (hij : j ≠ i)
    (c : IdManager.Call)
    (hc : c = .getCertainItem (i : Int) ∨ c = .returnBackItem (i : Int) ∨
      c = .finishItem (i : Int)) :
    ∃ r m' s, m.step c = .ok (r, m') ∧
      m.resource_pool_[j]? = some s ∧ m'.resource_pool_[j]? = some s ∧
      (j ∈ m'.pending_res_ ↔ j ∈ m.pending_res_) ∧
      m'.pending_res_.filter (fun p => p ≠ i) = m.pending_res_.filter (fun p => p ≠ i) := by
  have hsz := IdManager.toSizeT_index hN hi
  obtain ⟨cur, hcur, -⟩ := hm.inv.slot hi
  obtain ⟨s, hs, -⟩ := hm.inv.slot hj
  have hne : ¬ i = j := fun e => hij e.symm
  have hset : ∀ x : IdItem, (m.resource_pool_.set i x)[j]? = some s := by
    intro x
    rw [List.getElem?_set_ne hne, hs]
  rcases hc with rfl | rfl | rfl
  · have h := IdManager.getCertainItem_eval m (i : Int) cur (by rw [hsz]; exact hcur)
    rw [hsz] at h
    by_cases hst : cur.status = kResAllocated
    · rw [if_pos hst] at h
      exact ⟨_, _, s, IdManager.step_getCertainItem h, hs, hset _, Iff.rfl, rfl⟩
    · rw [if_neg hst] at h
      exact ⟨_, _, s, IdManager.step_getCertainItem h, hs, hs, Iff.rfl, rfl⟩
  · have h := IdManager.returnBackItem_eval m (i : Int) cur (by rw [hsz]; exact hcur)
    rw [hsz] at h
    by_cases hst : cur.status = kResAllocated
    · rw [if_pos hst] at h
      refine ⟨_, _, s, IdManager.step_returnBackItem h, hs, hset _, ?_, ?_⟩
      · simp [hij]
      · simp [List.filter_cons]
    · rw [if_neg hst] at h
      exact ⟨_, _, s, IdManager.step_returnBackItem h, hs, hs, Iff.rfl, rfl⟩
  · have h := IdManager.finishItem_eval m (i : Int) cur (by rw [hsz]; exact hcur)
    rw [hsz] at h
    by_cases hst : cur.status = kResAllocated
    · rw [if_pos hst] at h
      exact ⟨_, _, s, IdManager.step_finishItem h, hs, hset _, Iff.rfl, rfl⟩
    · rw [if_neg hst] at h
      exact ⟨_, _, s, IdManager.step_finishItem h, hs, hs, Iff.rfl, rfl⟩

/-- C12 at `IdManager(3)` after two `GetItem` calls, `i = 0`, `j = 2`:
`ReturnBackItem(0)` puts 0 in front of the deque `[2]` and leaves slot 2
Pending with attempt 0. -/
theorem C12_other_slots_untouched_witness :
    (∃ r m' s, IdManager.afterTwo.step (.returnBackItem ((0 : Nat) : Int)) = .ok (r, m') ∧
      IdManager.afterTwo.resource_pool_[(2 : Nat)]? = some s ∧
      m'.resource_pool_[(2 : Nat)]? = some s ∧
      ((2 : Nat) ∈ m'.pending_res_ ↔ (2 : Nat) ∈ IdManager.afterTwo.pending_res_) ∧
      m'.pending_res_.filter (fun p => p ≠ (0 : Nat)) =
        IdManager.afterTwo.pending_res_.filter (fun p => p ≠ (0 : Nat))) ∧
    IdManager.afterTwo.ReturnBackItem 0 =
      .ok ⟨[⟨0, 1, kResPending⟩, ⟨1, 1, kResAllocated⟩, ⟨2, 0, kResPending⟩], [0, 2]⟩ :=
  ⟨C12_other_slots_untouched 3 (by norm_num) IdManager.afterTwo IdManager.reachable_afterTwo
    0 2 (by norm_num) (by norm_num) (by norm_num) (.returnBackItem ((0 : Nat) : Int))
    (Or.inr (Or.inl rfl)), rfl⟩

/-- C13: in every state reachable from `IdManager(N)` the pool has `N` slots,
the slot at position `k` has index `k`, a slot is Pending exactly when its
position is in the pending deque, the deque holds no position twice, and all
its entries are positions of the pool. -/
theorem C13_pending_deque_invariant (N : Nat) (m : IdManager)
    (hm : IdManager.Reachable (N : Int) m) :
    m.resource_pool_.length = N ∧
    (∀ (k : Nat) (c : IdItem), m.resource_pool_[k]? = some c → c.no = (k : Int)) ∧
    (∀ (k : Nat) (c : IdItem), m.resource_pool_[k]? = some c →
      (c.status = kResPending ↔ k ∈ m.pending_res_)) ∧
    m.pending_res_.Nodup ∧
    (∀ p ∈ m.pending_res_, p < N) :=
  ⟨hm.inv.len, hm.inv.no_eq, hm.inv.pending_iff, hm.inv.nodup, hm.inv.pending_lt⟩

/-- C13 at `IdManager(3)` after two `GetItem` calls: three slots, the deque is
`[2]` and slot 2 is the only Pending one. -/
theorem C13_pending_deque_invariant_witness :
    (IdManager.afterTwo.resource_pool_.length = 3 ∧
    (∀ (k : Nat) (c : IdItem), IdManager.afterTwo.resource_pool_[k]? = some c →
      c.no = (k : Int)) ∧
    (∀ (k : Nat) (c : IdItem), IdManager.afterTwo.resource_pool_[k]? = some c →
      (c.status = kResPending ↔ k ∈ IdManager.afterTwo.pending_res_)) ∧
    IdManager.afterTwo.pending_res_.Nodup ∧
    (∀ p ∈ IdManager.afterTwo.pending_res_, p < 3)) ∧
    IdManager.afterTwo.pending_res_ = [2] ∧
    IdManager.afterTwo.resource_pool_.map (fun c => c.status) =
      [kResAllocated, kResAllocated, kResPending] :=
  ⟨C13_pending_deque_invariant 3 IdManager.afterTwo IdManager.reachable_afterTwo, rfl, rfl⟩

/-! ## The shape of one call -/

namespace IdManager

theorem returnBackItem_ok {m m' : IdManager} {no : Int} (h : m.ReturnBackItem no = .ok m') :
    m' = m ∨ ∃ cur, m.resource_pool_[toSizeT no]? = some cur ∧ cur.status = kResAllocated ∧
      m' = { resource_pool_ := m.resource_pool_.set (toSizeT no) { cur with status := kResPending }
             pending_res_ := toSizeT no :: m.pending_res_ } := by
  unfold ReturnBackItem at h
  simp only at h
  split at h
  · simp at h
  · rename_i cur hcur
    split at h
    · rename_i hst
      simp only [Except.ok.injEq] at h
      exact Or.inr ⟨cur, hcur, hst, h.symm⟩
    · simp only [Except.ok.injEq] at h
      exact Or.inl h.symm

theorem finishItem_ok {m m' : IdManager} {no : Int} {b : Bool}
    (h : m.FinishItem no = .ok (b, m')) :
    (b = false ∧ m' = m) ∨
      ∃ cur, m.resource_pool_[toSizeT no]? = some cur ∧ cur.status = kResAllocated ∧ b = true ∧
        m' = { m with
          resource_pool_ := m.resource_pool_.set (toSizeT no) { cur with status := kResDone } } := by
  unfold FinishItem at h
  simp only at h
  split at h
  · simp only [Except.ok.injEq, Prod.mk.injEq] at h
    exact Or.inl ⟨h.1.symm, h.2.symm⟩
  · split at h
    · simp at h
    · rename_i cur hcur
      split at h
      · rename_i hst
        simp only [Except.ok.injEq, Prod.mk.injEq] at h
        exact Or.inr ⟨cur, hcur, hst, h.1.symm, h.2.symm⟩
      · simp only [Except.ok.injEq, Prod.mk.injEq] at h
        exact Or.inl ⟨h.1.symm, h.2.symm⟩

theorem gained_item_some (i : Nat) (it : IdItem) :
    gained i (.item (some it)) = if it.no = (i : Int) then 1 else 0 := rfl

/-- One call either leaves the pool as it was and hands out no slot, or it
replaces one slot that was not Done by a slot whose attempt count grew by what
the reply hands out for that position; no other position is handed out. -/
theorem Inv.step_shape {N : Nat} {m m' : IdManager} {c : Call} {r : Reply} (h : Inv N m)
    (hs : m.step c = .ok (r, m')) :
    (m'.resource_pool_ = m.resource_pool_ ∧ ∀ i, gained i r = 0) ∨
      ∃ n cur new, m.resource_pool_[n]? = some cur ∧ cur.status ≠ kResDone ∧
        m'.resource_pool_ = m.resource_pool_.set n new ∧
        new.attempt = cur.attempt + gained n r ∧ ∀ i, i ≠ n → gained i r = 0 := by
  cases c with
  | getItem =>
    obtain ⟨a, ha, e⟩ := map_eq_ok hs
    obtain ⟨o, m1⟩ := a
    simp only [Prod.mk.injEq] at e
    obtain ⟨rfl, rfl⟩ := e
    cases o with
    | none =>
      rw [getItem_none ha]
      exact Or.inl ⟨rfl, fun i => rfl⟩
    | some it =>
      obtain ⟨p, cur, rest, hp, hcur, hit, hno, -, rfl⟩ := h.getItem_some ha
      have hpend : cur.status = kResPending := (h.pending_iff p cur hcur).2 (by simp [hp])
      refine Or.inr ⟨p, cur, it, hcur, by rw [hpend]; simp, rfl, ?_, ?_⟩
      · rw [gained_item_some, if_pos hno, hit]
        rfl
      · intro i hi
        rw [gained_item_some, hno, if_neg (by omega)]
  | getCertainItem no =>
    obtain ⟨a, ha, e⟩ := map_eq_ok hs
    obtain ⟨o, m1⟩ := a
    simp only [Prod.mk.injEq] at e
    obtain ⟨rfl, rfl⟩ := e
    cases o with
    | none =>
      rw [getCertainItem_none ha]
      exact Or.inl ⟨rfl, fun i => rfl⟩
    | some it =>
      obtain ⟨cur, hcur, hst, hit, rfl⟩ := getCertainItem_some ha
      have hno : it.no = (toSizeT no : Int) := by
        rw [hit]
        exact h.no_eq _ cur hcur
      refine Or.inr ⟨toSizeT no, cur, it, hcur, by rw [hst]; simp, rfl, ?_, ?_⟩
      · rw [gained_item_some, if_pos hno, hit]
      · intro i hi
        rw [gained_item_some, hno, if_neg (by omega)]
  | returnBackItem no =>
    obtain ⟨a, ha, e⟩ := map_eq_ok hs
    simp only [Prod.mk.injEq] at e
    obtain ⟨rfl, rfl⟩ := e
    rcases returnBackItem_ok ha with rfl | ⟨cur, hcur, hst, rfl⟩
    · exact Or.inl ⟨rfl, fun i => rfl⟩
    · exact Or.inr ⟨toSizeT no, cur, _, hcur, by rw [hst]; simp, rfl, rfl, fun i _ => rfl⟩
  | finishItem no =>
    obtain ⟨a, ha, e⟩ := map_eq_ok hs
    obtain ⟨b, m1⟩ := a
    simp only [Prod.mk.injEq] at e
    obtain ⟨rfl, rfl⟩ := e
    rcases finishItem_ok ha with ⟨-, rfl⟩ | ⟨cur, hcur, hst, -, rfl⟩
    · exact Or.inl ⟨rfl, fun i => rfl⟩
    · exact Or.inr ⟨toSizeT no, cur, _, hcur, by rw [hst]; simp, rfl, rfl, fun i _ => rfl⟩
  | checkCertainItem no =>
    obtain ⟨a, ha, e⟩ := map_eq_ok hs
    obtain ⟨o, m1⟩ := a
    simp only [Prod.mk.injEq] at e
    obtain ⟨rfl, rfl⟩ := e
    rw [checkCertainItem_ok ha]
    exact Or.inl ⟨rfl, fun i => rfl⟩

theorem Reachable.evolves {n : Int} {m m' : IdManager} (h : Reachable n m)
    (he : Evolves m m') : Reachable n m' := by
  induction he with
  | refl => exact h
  | call _ hs ih => exact Reachable.call ih hs

theorem Run.reachable {n : Int} {tr : List (Call × Reply)} {m : IdManager} (h : Run n tr m) :
    Reachable n m := by
  induction h with
  | ctor => exact Reachable.ctor
  | call _ hs ih => exact Reachable.call ih hs

/-- A Done slot survives one call unchanged. -/
theorem Inv.done_step {N : Nat} {m m' : IdManager} {c : Call} {r : Reply} (h : Inv N m)
    (hs : m.step c = .ok (r, m')) {i : Nat} {s : IdItem} (hi : m.resource_pool_[i]? = some s)
    (hd : s.status = kResDone) : m'.resource_pool_[i]? = some s := by
  rcases h.step_shape hs with ⟨hp, -⟩ | ⟨n, cur, new, hcur, hnd, hp, -, -⟩
  · rw [hp]
    exact hi
  · rw [hp]
    by_cases e : n = i
    · subst e
      rw [hcur] at hi
      simp only [Option.some.injEq] at hi
      rw [hi] at hnd
      exact absurd hd hnd
    · rw [List.getElem?_set_ne e]
      exact hi

end IdManager

namespace IdManager

theorem reachable_afterReturn : Reachable ((3 : Nat) : Int) afterReturn :=
  Reachable.call reachable_afterTwo
    (show afterTwo.step (.returnBackItem 0) = .ok (.done, afterReturn) from rfl)

theorem reachable_afterRetry : Reachable ((3 : Nat) : Int) afterRetry :=
  Reachable.call reachable_afterReturn
    (show afterReturn.step .getItem = .ok (.item (some ⟨0, 2, kResAllocated⟩), afterRetry)
      from rfl)

theorem reachable_allAllocated : Reachable ((3 : Nat) : Int) allAllocated :=
  Reachable.call reachable_afterRetry
    (show afterRetry.step .getItem = .ok (.item (some ⟨2, 1, kResAllocated⟩), allAllocated)
      from rfl)

theorem reachable_oneDone : Reachable ((3 : Nat) : Int) oneDone :=
  Reachable.call reachable_allAllocated
    (show allAllocated.step (.finishItem 1) = .ok (.flag true, oneDone) from rfl)

/-- A Done slot survives every further sequence of calls unchanged. -/
theorem Reachable.done_evolves {N : Nat} {m m' : IdManager} (hm : Reachable (N : Int) m)
    (he : Evolves m m') {i : Nat} {s : IdItem} (hi : m.resource_pool_[i]? = some s)
    (hd : s.status = kResDone) : m'.resource_pool_[i]? = some s := by
  induction he with
  | refl => exact hi
  | call hprev hs ih => exact (hm.evolves hprev).inv.done_step hs ih hd

end IdManager

/-- C14: if slot `i` (in range) is Done in a state reachable from
`IdManager(N)`, then after every further sequence of calls the slot is the
same (still Done, same attempt count, same index), no `GetItem` returns it, and
`GetCertainItem(i)` and `FinishItem(i)` fail (`NULL`, false) leaving the
allocator as it is. -/
theorem C14_done_is_terminal (N : Nat) (hN : N < 2 ^ 31) (m : IdManager)
    (hm : IdManager.Reachable (N : Int) m) (i : Nat) (hi : i < N) (s : IdItem)
    (hs : m.resource_pool_[i]? = some s) (hd : s.status = kResDone) (m' : IdManager)
    (he : IdManager.Evolves m m') :
    m'.resource_pool_[i]? = some s ∧
    (∀ it m'', m'.GetItem = .ok (some it, m'') → it.no ≠ (i : Int)) ∧
    m'.GetCertainItem (i : Int) = .ok (none, m') ∧
    m'.FinishItem (i : Int) = .ok (false, m') := by
  have hs' := hm.done_evolves he hs hd
  have hinv := (hm.evolves he).inv
  have hsz := IdManager.toSizeT_index hN hi
  have hna : ¬ s.status = kResAllocated := by rw [hd]; simp
  refine ⟨hs', ?_, ?_, ?_⟩
  · intro it m'' hg hno
    obtain ⟨p, cur, rest, hp, hcur, -, hno', -, -⟩ := hinv.getItem_some hg
    have hpi : p = i := by
      rw [hno'] at hno
      exact_mod_cast hno
    subst hpi
    have hpend : cur.status = kResPending := (hinv.pending_iff p cur hcur).2 (by simp [hp])
    rw [hcur] at hs'
    simp only [Option.some.injEq] at hs'
    rw [hs', hd] at hpend
    simp at hpend
  · rw [IdManager.getCertainItem_eval m' (i : Int) s (by rw [hsz]; exact hs'), if_neg hna]
  · rw [IdManager.finishItem_eval m' (i : Int) s (by rw [hsz]; exact hs'), if_neg hna]

/-- C14 at `IdManager(3)` after scenario A's `FinishItem(1)`: slot 1 is Done
with attempt 1, and after a further `ReturnBackItem(1)` it is still so,
`GetItem` gives `NULL`, `GetCertainItem(1)` gives `NULL` and `FinishItem(1)`
false. -/
theorem C14_done_is_terminal_witness :
    (IdManager.oneDone.resource_pool_[(1 : Nat)]? = some ⟨1, 1, kResDone⟩ ∧
    (∀ it m'', IdManager.oneDone.GetItem = .ok (some it, m'') → it.no ≠ ((1 : Nat) : Int)) ∧
    IdManager.oneDone.GetCertainItem ((1 : Nat) : Int) = .ok (none, IdManager.oneDone) ∧
    IdManager.oneDone.FinishItem ((1 : Nat) : Int) = .ok (false, IdManager.oneDone)) ∧
    IdManager.oneDone.step (.returnBackItem 1) = .ok (.done, IdManager.oneDone) ∧
    IdManager.oneDone.GetItem = .ok (none, IdManager.oneDone) :=
  ⟨C14_done_is_terminal 3 (by norm_num) IdManager.oneDone IdManager.reachable_oneDone 1
    (by norm_num) ⟨1, 1, kResDone⟩ rfl rfl IdManager.oneDone
    (IdManager.Evolves.call IdManager.Evolves.refl
      (show IdManager.oneDone.step (.returnBackItem 1) = .ok (.done, IdManager.oneDone)
        from rfl)),
    rfl, rfl⟩

/-- C15: in a state reachable from `IdManager(N)`, `GetItem` returns `NULL`
exactly when no slot is Pending, and then the allocator is unchanged; when some
slot is Pending it returns the slot at the head of the pending deque with its
attempt count incremented by 1, sets that slot to Allocated and removes the
head from the deque. -/
theorem C15_getItem_null_iff_none_pending (N : Nat) (m : IdManager)
    (hm : IdManager.Reachable (N : Int) m) :
    ((∃ m', m.GetItem = .ok (none, m')) ↔ ∀ c ∈ m.resource_pool_, c.status ≠ kResPending) ∧
    (∀ m', m.GetItem = .ok (none, m') → m' = m) ∧
    ((∃ c ∈ m.resource_pool_, c.status = kResPending) →
      ∃ p rest cur, m.pending_res_ = p :: rest ∧ m.resource_pool_[p]? = some cur ∧
        cur.status = kResPending ∧
        m.GetItem = .ok (some ⟨(p : Int), cur.attempt + 1, kResAllocated⟩,
          { resource_pool_ := m.resource_pool_.set p ⟨(p : Int), cur.attempt + 1, kResAllocated⟩
            pending_res_ := rest })) := by
  have hinv := hm.inv
  have hnone : m.pending_res_ = [] → ∀ c ∈ m.resource_pool_, c.status ≠ kResPending := by
    intro hp c hc hst
    obtain ⟨k, hk, hkc⟩ := List.mem_iff_getElem.1 hc
    have hget : m.resource_pool_[k]? = some c := by
      rw [List.getElem?_eq_getElem hk, hkc]
    have := (hinv.pending_iff k c hget).1 hst
    rw [hp] at this
    simp at this
  have hsome : ∀ p rest, m.pending_res_ = p :: rest →
      ∃ cur, m.resource_pool_[p]? = some cur ∧ cur.status = kResPending ∧
        m.GetItem = .ok (some ⟨(p : Int), cur.attempt + 1, kResAllocated⟩,
          { resource_pool_ := m.resource_pool_.set p ⟨(p : Int), cur.attempt + 1, kResAllocated⟩
            pending_res_ := rest }) := by
    intro p rest hp
    have hlt : p < N := hinv.pending_lt p (by simp [hp])
    obtain ⟨cur, hcur, hno⟩ := hinv.slot hlt
    refine ⟨cur, hcur, (hinv.pending_iff p cur hcur).2 (by simp [hp]), ?_⟩
    simp only [IdManager.GetItem, hp, hcur, hno]
  refine ⟨⟨?_, ?_⟩, fun m' h => IdManager.getItem_none h, ?_⟩
  · rintro ⟨m', h⟩
    cases hp : m.pending_res_ with
    | nil => exact hnone hp
    | cons p rest =>
      obtain ⟨cur, -, -, hg⟩ := hsome p rest hp
      rw [hg] at h
      simp at h
  · intro hall
    cases hp : m.pending_res_ with
    | nil => exact ⟨m, by simp only [IdManager.GetItem, hp]⟩
    | cons p rest =>
      obtain ⟨cur, hcur, hst, -⟩ := hsome p rest hp
      exact absurd hst (hall cur (List.getElem?_mem hcur))
  · rintro ⟨c, hc, hst⟩
    cases hp : m.pending_res_ with
    | nil => exact absurd hst (hnone hp c hc)
    | cons p rest =>
      obtain ⟨cur, hcur, hst', hg⟩ := hsome p rest hp
      exact ⟨p, rest, cur, rfl, hcur, hst', hg⟩

/-- C15 at the end of the spec's scenario A: `N = 3`, slot 0 Allocated with
attempt 2 (re-acquired after its return), slots 1 and 2 Allocated; no slot is
Pending and none is Done, and `GetItem` returns `NULL` leaving the allocator
unchanged. -/
theorem C15_getItem_null_iff_none_pending_witness :
    (((∃ m', IdManager.allAllocated.GetItem = .ok (none, m')) ↔
      ∀ c ∈ IdManager.allAllocated.resource_pool_, c.status ≠ kResPending) ∧
    (∀ m', IdManager.allAllocated.GetItem = .ok (none, m') → m' = IdManager.allAllocated) ∧
    ((∃ c ∈ IdManager.allAllocated.resource_pool_, c.status = kResPending) →
      ∃ p rest cur, IdManager.allAllocated.pending_res_ = p :: rest ∧
        IdManager.allAllocated.resource_pool_[p]? = some cur ∧ cur.status = kResPending ∧
        IdManager.allAllocated.GetItem =
          .ok (some ⟨(p : Int), cur.attempt + 1, kResAllocated⟩,
            { resource_pool_ := IdManager.allAllocated.resource_pool_.set p
                ⟨(p : Int), cur.attempt + 1, kResAllocated⟩
              pending_res_ := rest }))) ∧
    IdManager.allAllocated.GetItem = .ok (none, IdManager.allAllocated) ∧
    IdManager.allAllocated.resource_pool_.map (fun c => c.status) =
      [kResAllocated, kResAllocated, kResAllocated] :=
  ⟨C15_getItem_null_iff_none_pending 3 IdManager.allAllocated IdManager.reachable_allAllocated,
    rfl, rfl⟩

namespace IdManager

theorem gained_le_one (i : Nat) (r : Reply) : gained i r ≤ 1 := by
  unfold gained
  split
  · split <;> simp
  · simp

theorem gained_eq_one_iff (i : Nat) (r : Reply) :
    gained i r = 1 ↔ ∃ it, r = .item (some it) ∧ it.no = (i : Int) := by
  constructor
  · intro h
    unfold gained at h
    split at h
    · rename_i it
      split at h
      · rename_i hno
        exact ⟨it, rfl, hno⟩
      · simp at h
    · simp at h
  · rintro ⟨it, rfl, hno⟩
    simp [gained, hno]

/-- Only `GetItem` and `GetCertainItem(i)` hand out slot `i`. -/
theorem Inv.gained_call {N : Nat} {m m' : IdManager} {c : Call} {r : Reply} (h : Inv N m)
    (hs : m.step c = .ok (r, m')) {i : Nat} (hg : gained i r = 1) :
    c = .getItem ∨ ∃ no, c = .getCertainItem no ∧ toSizeT no = i := by
  obtain ⟨it, rfl, hno⟩ := (gained_eq_one_iff i r).1 hg
  cases c with
  | getItem => exact Or.inl rfl
  | getCertainItem no =>
    obtain ⟨a, ha, e⟩ := map_eq_ok hs
    obtain ⟨o, m1⟩ := a
    simp only [Prod.mk.injEq, Reply.item.injEq] at e
    obtain ⟨rfl, rfl⟩ := e
    obtain ⟨cur, hcur, -, hit, -⟩ := getCertainItem_some ha
    have : it.no = (toSizeT no : Int) := by
      rw [hit]
      exact h.no_eq _ cur hcur
    exact Or.inr ⟨no, rfl, by omega⟩
  | returnBackItem no =>
    obtain ⟨a, -, e⟩ := map_eq_ok hs
    simp at e
  | finishItem no =>
    obtain ⟨a, -, e⟩ := map_eq_ok hs
    simp at e
  | checkCertainItem no =>
    obtain ⟨a, -, e⟩ := map_eq_ok hs
    simp at e

/-- One call adds to the attempt count of slot `i` what its reply hands out
for `i`. -/
theorem Inv.attempt_step {N : Nat} {m m' : IdManager} {c : Call} {r : Reply} (h : Inv N m)
    (hs : m.step c = .ok (r, m')) {i : Nat} (hi : i < N) :
    ∃ a, m.attemptOf i = some a ∧ m'.attemptOf i = some (a + gained i r) := by
  obtain ⟨s, hsl, -⟩ := h.slot hi
  refine ⟨s.attempt, by simp [attemptOf, hsl], ?_⟩
  rcases h.step_shape hs with ⟨hp, hz⟩ | ⟨n, cur, new, hcur, -, hp, hatt, hz⟩
  · simp [attemptOf, hp, hsl, hz i]
  · by_cases e : n = i
    · subst e
      rw [hcur] at hsl
      simp only [Option.some.injEq] at hsl
      have hlt := lt_of_getElem? hcur
      simp [attemptOf, hp, List.getElem?_set_self hlt, hatt, hsl]
    · have e' : i ≠ n := fun x => e x.symm
      simp [attemptOf, hp, List.getElem?_set_ne e, hsl, hz i e']

theorem Run.attempt_eq {N : Nat} {tr : List (Call × Reply)} {m : IdManager}
    (h : Run (N : Int) tr m) {i : Nat} (hi : i < N) :
    m.attemptOf i = some (acquisitions i tr) := by
  induction h with
  | ctor =>
    rw [new_eq]
    simp [attemptOf, List.getElem?_range hi, fresh, acquisitions]
  | call hprev hs ih =>
    obtain ⟨a, ha, ha'⟩ := hprev.reachable.inv.attempt_step hs hi
    rw [ih] at ha
    simp only [Option.some.injEq] at ha
    rw [ha', ← ha]
    simp [acquisitions, Nat.add_comm]

theorem acquisitions_eq_zero {i : Nat} {tr : List (Call × Reply)} (h : acquisitions i tr = 0) :
    ∀ e ∈ tr, gained i e.2 = 0 := by
  induction tr with
  | nil => simp
  | cons x xs ih =>
    simp only [acquisitions, List.map_cons, List.sum_cons, Nat.add_eq_zero] at h
    intro e he
    rcases List.mem_cons.1 he with rfl | he'
    · exact h.1
    · exact ih h.2 e he'

theorem run_afterTwo :
    Run ((3 : Nat) : Int)
      [(.getItem, .item (some ⟨1, 1, kResAllocated⟩)),
       (.getItem, .item (some ⟨0, 1, kResAllocated⟩))] afterTwo :=
  Run.call
    (Run.call Run.ctor
      (show (IdManager.new ((3 : Nat) : Int)).step .getItem =
        .ok (.item (some ⟨0, 1, kResAllocated⟩), afterOne) from rfl))
    (show afterOne.step .getItem = .ok (.item (some ⟨1, 1, kResAllocated⟩), afterTwo) from rfl)

end IdManager

/-- C17: along every history of `IdManager(N)` and for every slot `i` in range,
one further call changes the slot's attempt count by what its reply hands out
for `i`: by 1 when the reply is a snapshot with index `i`, which only
`GetItem` and `GetCertainItem(i)` produce, and by 0 otherwise. So the attempt
count of slot `i` is the number of successful results for `i` in the history,
and a slot with attempt count 0 was never handed out. -/
theorem C17_attempt_counts_acquisitions (N : Nat) (tr : List (IdManager.Call × IdManager.Reply))
    (m : IdManager) (hrun : IdManager.Run (N : Int) tr m) (i : Nat) (hi : i < N) :
    (∀ c r m', m.step c = .ok (r, m') →
      ∃ a, m.attemptOf i = some a ∧ m'.attemptOf i = some (a + IdManager.gained i r) ∧
        IdManager.gained i r ≤ 1 ∧
        (IdManager.gained i r = 1 ↔ ∃ it, r = .item (some it) ∧ it.no = (i : Int)) ∧
        (IdManager.gained i r = 1 →
          c = .getItem ∨ ∃ no, c = .getCertainItem no ∧ toSizeT no = i)) ∧
    m.attemptOf i = some (IdManager.acquisitions i tr) ∧
    (m.attemptOf i = some 0 → ∀ e ∈ tr, IdManager.gained i e.2 = 0) := by
  have hinv := hrun.reachable.inv
  have hatt := hrun.attempt_eq hi
  refine ⟨?_, hatt, ?_⟩
  · intro c r m' hs
    obtain ⟨a, ha, ha'⟩ := hinv.attempt_step hs hi
    exact ⟨a, ha, ha', IdManager.gained_le_one i r, IdManager.gained_eq_one_iff i r,
      fun hg => hinv.gained_call hs hg⟩
  · intro h0
    rw [hatt] at h0
    simp only [Option.some.injEq] at h0
    exact IdManager.acquisitions_eq_zero h0

/-- C17 at `IdManager(3)` after two `GetItem` calls: slot 0 was handed out once
and has attempt count 1; slot 2 was never handed out and has attempt count 0. -/
theorem C17_attempt_counts_acquisitions_witness :
    ((∀ c r m', IdManager.afterTwo.step c = .ok (r, m') →
      ∃ a, IdManager.afterTwo.attemptOf 0 = some a ∧
        m'.attemptOf 0 = some (a + IdManager.gained 0 r) ∧
        IdManager.gained 0 r ≤ 1 ∧
        (IdManager.gained 0 r = 1 ↔ ∃ it, r = .item (some it) ∧ it.no = ((0 : Nat) : Int)) ∧
        (IdManager.gained 0 r = 1 →
          c = .getItem ∨ ∃ no, c = .getCertainItem no ∧ toSizeT no = 0)) ∧
    IdManager.afterTwo.attemptOf 0 =
      some (IdManager.acquisitions 0
        [(.getItem, .item (some ⟨1, 1, kResAllocated⟩)),
         (.getItem, .item (some ⟨0, 1, kResAllocated⟩))]) ∧
    (IdManager.afterTwo.attemptOf 0 = some 0 →
      ∀ e ∈ [((.getItem : IdManager.Call), IdManager.Reply.item (some ⟨1, 1, kResAllocated⟩)),
         (.getItem, .item (some ⟨0, 1, kResAllocated⟩))], IdManager.gained 0 e.2 = 0)) ∧
    IdManager.afterTwo.attemptOf 0 = some 1 ∧
    IdManager.afterTwo.attemptOf 2 = some 0 ∧
    IdManager.acquisitions 2
      [(.getItem, .item (some ⟨1, 1, kResAllocated⟩)),
       (.getItem, .item (some ⟨0, 1, kResAllocated⟩))] = 0 :=
  ⟨C17_attempt_counts_acquisitions 3 _ IdManager.afterTwo IdManager.run_afterTwo 0
    (by norm_num), rfl, rfl, rfl⟩

/-- C18: for a source of length `L ≥ 0`, a block size `0 < B < 2^31` and a
pool of `c` units such that the counter stays below `2^31` through the source's
last increment (`c + floor(L/B) + 1 < 2^31`, which makes `floor(L/B) < 2^31` and
`L < 2^63`), nothing wraps: the 32-bit `blocks` is `floor(L/B)`, the 32-bit
`rest` is `L − floor(L/B)·B`, every 64-bit offset `k·B` is exact, the 32-bit
counter takes the exact values `c + k`; the loop body appends the
specification's split numbered from `c`, so each new unit's index is its
position in the pool, and every emitted offset and length is `≥ 0` with the
length `≤ B`. -/
theorem C18_split_without_wraparound (name : String) (L B : Int) (pool : List ResourceItem)
    (hB : 0 < B) (hB' : B < 2 ^ 31) (hL : 0 ≤ L)
    (hc : pool.length + (L / B).toNat + 1 < 2 ^ 31) :
    L / B < 2 ^ 31 ∧ L < 2 ^ 63 ∧
    wrapInt32 (Int.tdiv L B) = L / B ∧
    wrapInt32 (wrapInt64 (L - wrapInt64 (wrapInt32 (Int.tdiv L B) * B))) = L - L / B * B ∧
    (∀ k : Nat, (k : Int) ≤ L / B → wrapInt64 ((k : Int) * B) = (k : Int) * B) ∧
    (∀ k : Nat, (k : Int) ≤ L / B + 1 →
      wrapInt32 ((pool.length : Int) + k) = (pool.length : Int) + k) ∧
    ResourceManager.splitFile B ⟨name, L⟩ (pool.length : Int) pool =
      .ok (pool ++ specSplit B pool.length ⟨name, L⟩,
        ((pool.length + (L / B).toNat + 1 : Nat) : Int)) ∧
    (∀ (k : Nat) (u : ResourceItem),
      (pool ++ specSplit B pool.length ⟨name, L⟩)[k]? = some u → pool.length ≤ k →
        u.no = (k : Int)) ∧
    (∀ u ∈ specSplit B pool.length ⟨name, L⟩, 0 ≤ u.offset ∧ 0 ≤ u.size ∧ u.size ≤ B) := by
  have hq0 : 0 ≤ L / B := Int.ediv_nonneg hL hB.le
  have hq : L / B < 2 ^ 31 := by
    have := Int.toNat_of_nonneg hq0
    omega
  obtain ⟨h0, hnat, h3, h1, h2, h62⟩ := ResourceManager.split_bounds hB hB' hL hq
  have hblocks : wrapInt32 (Int.tdiv L B) = L / B := by
    rw [Int.tdiv_eq_ediv hL hB.le]
    exact wrapInt32_of_range (by omega) hq
  have hmul : ∀ k : Nat, (k : Int) ≤ L / B → 0 ≤ (k : Int) * B ∧ (k : Int) * B ≤ L := by
    intro k hk
    have : (k : Int) * B ≤ L / B * B := Int.mul_le_mul_of_nonneg_right hk hB.le
    exact ⟨by positivity, by omega⟩
  have hcI : (pool.length : Int) + L / B + 1 < 2 ^ 31 := by omega
  have hoff : wrapInt64 (L / B * B) = L / B * B := wrapInt64_of_range (by omega) (by omega)
  have hsplit := ResourceManager.splitFile_exact hB hB' ⟨name, L⟩ hL pool.length pool
    (by show pool.length + (L / B).toNat + 1 < 2 ^ 31; omega)
  refine ⟨hq, by omega, hblocks, ?_, ?_, ?_, ?_, ?_, ?_⟩
  · rw [hblocks, hoff, wrapInt64_of_range (by omega) (by omega)]
    exact wrapInt32_of_range (by omega) (by omega)
  · intro k hk
    have := hmul k hk
    exact wrapInt64_of_range (by omega) (by omega)
  · intro k hk
    exact wrapInt32_of_range (by omega) (by omega)
  · rw [hsplit]
    simp only [specUnits, Nat.add_assoc]
  · intro k u hu hk
    rw [List.getElem?_append_right hk, ResourceManager.specSplit_getElem?] at hu
    dsimp only at hu
    split at hu
    · simp only [Option.some.injEq] at hu
      rw [← hu]
      dsimp only
      omega
    · split at hu
      · rename_i e
        simp only [Option.some.injEq] at hu
        rw [← hu]
        dsimp only
        omega
      · simp at hu
  · intro u hu
    simp only [specSplit, List.mem_append, List.mem_map, List.mem_range,
      List.mem_singleton] at hu
    rcases hu with ⟨k, hk, rfl⟩ | rfl
    · have := hmul k (by omega)
      exact ⟨this.1, hB.le, le_refl _⟩
    · dsimp only
      exact ⟨h3, by omega, by omega⟩

/-- C18 at the spec's scenario B: `L = 250`, `B = 100` on an empty pool; the
loop body appends `(0,0,100)`, `(1,100,100)`, `(2,200,50)` and leaves the
counter at 3. -/
theorem C18_split_without_wraparound_witness :
    ((250 : Int) / 100 < 2 ^ 31 ∧ (250 : Int) < 2 ^ 63 ∧
    wrapInt32 (Int.tdiv 250 100) = 250 / 100 ∧
    wrapInt32 (wrapInt64 (250 - wrapInt64 (wrapInt32 (Int.tdiv 250 100) * 100))) =
      250 - 250 / 100 * 100 ∧
    (∀ k : Nat, (k : Int) ≤ 250 / 100 → wrapInt64 ((k : Int) * 100) = (k : Int) * 100) ∧
    (∀ k : Nat, (k : Int) ≤ 250 / 100 + 1 →
      wrapInt32 ((([] : List ResourceItem).length : Int) + k) =
        (([] : List ResourceItem).length : Int) + k) ∧
    ResourceManager.splitFile 100 ⟨"a", 250⟩ (([] : List ResourceItem).length : Int) [] =
      .ok ([] ++ specSplit 100 ([] : List ResourceItem).length ⟨"a", 250⟩,
        ((([] : List ResourceItem).length + ((250 : Int) / 100).toNat + 1 : Nat) : Int)) ∧
    (∀ (k : Nat) (u : ResourceItem),
      ([] ++ specSplit 100 ([] : List ResourceItem).length ⟨"a", 250⟩)[k]? = some u →
        ([] : List ResourceItem).length ≤ k → u.no = (k : Int)) ∧
    (∀ u ∈ specSplit 100 ([] : List ResourceItem).length ⟨"a", 250⟩,
      0 ≤ u.offset ∧ 0 ≤ u.size ∧ u.size ≤ 100)) ∧
    ResourceManager.splitFile 100 ⟨"a", 250⟩ 0 [] =
      .ok ([⟨0, 0, "a", 0, 100⟩, ⟨1, 0, "a", 100, 100⟩, ⟨2, 0, "a", 200, 50⟩], 3) :=
  ⟨C18_split_without_wraparound "a" 250 100 [] (by norm_num) (by norm_num) (by norm_num)
    (by decide), rfl⟩

/-! ## The result outlet -/

namespace ResultOutlet

/-- With a pool of 26 entries and an index below 26, `GetOutputFile` does not
take its out-of-range branch, the pool lookup is in range, and `WriteToOutput`
hands `WriteRecord` the selected value, preceded by the key and a tab unless
the output is text. -/
theorem writeToOutput_at (o : ResultOutlet) (createOk openOk writeOk : Bool)
    (key value : List Char) (idx : Nat) (part : List Char) (hidx : idx < o.output_pool_.length)
    (hlen : o.output_pool_.length = 26) (hsel : selectOutput o value = ((idx : Int), part)) :
    ¬ (toSizeT (idx : Int) > o.output_pool_.length) ∧
    (∃ b, o.output_pool_[toSizeT (idx : Int)]? = some b) ∧
    ∃ res, o.WriteToOutput createOk openOk writeOk key value = .ok res ∧
      res.outlet.multiplex_ = o.multiplex_ ∧ res.outlet.textoutput_ = o.textoutput_ ∧
      res.outlet.output_pool_.length = 26 ∧
      ∀ rec, res.record = some rec →
        rec = ⟨idx, key, if o.textoutput_ then part else key ++ [Char.ofNat 9] ++ part⟩ := by
  obtain ⟨pool, mx, tx⟩ := o
  simp only at hidx hlen ⊢
  have hsz : toSizeT (idx : Int) = idx := toSizeT_natCast (by omega)
  obtain ⟨b, hb⟩ : ∃ b, pool[idx]? = some b := ⟨_, List.getElem?_eq_getElem hidx⟩
  refine ⟨by rw [hsz]; omega, ⟨b, by rw [hsz]; exact hb⟩, ?_⟩
  have hgt : ¬ idx > pool.length := by omega
  unfold WriteToOutput GetOutputFile
  simp only [hsel, hsz, hgt, if_false, hb]
  cases b <;> cases createOk <;> cases openOk <;> cases tx <;> simp [hlen]

theorem selectOutput_plain (o : ResultOutlet) (value : List Char)
    (h : value.length < 2 ∨
      ∀ c, value.getLast? = some c → ¬ ('A'.toNat ≤ c.toNat ∧ c.toNat ≤ 'Z'.toNat)) :
    selectOutput o value = (((0 : Nat) : Int), value) := by
  unfold selectOutput
  split
  · split
    · rename_i h2
      rcases h with h | h
      · omega
      · split
        · rfl
        · rename_i suffix hs
          rw [if_neg (h suffix hs)]
          rfl
    · rfl
  · rfl

theorem selectOutput_upper (o : ResultOutlet) (hm : o.multiplex_ = true) (value : List Char)
    (c : Char) (h2 : 2 ≤ value.length) (hc : value.getLast? = some c)
    (hA : 'A'.toNat ≤ c.toNat) (hZ : c.toNat ≤ 'Z'.toNat) :
    selectOutput o value = (((c.toNat - 'A'.toNat : Nat) : Int), value.dropLast.dropLast) := by
  unfold selectOutput
  rw [if_pos hm, if_pos h2]
  simp only [hc, hA, hZ, and_self, if_true, Prod.mk.injEq, and_true]
  omega

end ResultOutlet

/-- C19, the claim as stated fails: `Collect` clears `textoutput_` when the
format is `multiple`, so in multiplex mode `WriteToOutput` hands `WriteRecord`
the key, a tab and then the selected value. For key `k` and value `xyA` the
index is 0 and the written value is `k<TAB>x`, not `x`. -/
theorem C19_written_value_counterexample :
    ResultOutlet.collectSetup ⟨[], false, true⟩ "multiple" true true =
      some ResultOutlet.multiple ∧
    ResultOutlet.multiple.WriteToOutput true true true ['k'] ['x', 'y', 'A'] =
      .ok ⟨true, some ⟨0, ['k'], ['k', Char.ofNat 9, 'x']⟩,
        { ResultOutlet.multiple with output_pool_ := true :: List.replicate 25 false }⟩ ∧
    (['k', Char.ofNat 9, 'x'] : List Char) ≠ (['x', 'y', 'A'] : List Char).dropLast.dropLast :=
  ⟨by decide, rfl, by decide⟩

/-- Index selection and the record written, for any outlet in multiplex mode
with a pool of 26 entries. -/
theorem ResultOutlet.multiplex_write (o : ResultOutlet) (hm : o.multiplex_ = true)
    (hlen : o.output_pool_.length = 26) (createOk openOk writeOk : Bool)
    (key value : List Char) :
    ∃ (idx : Nat) (part : List Char), idx < 26 ∧
      ResultOutlet.selectOutput o value = ((idx : Int), part) ∧
      (∀ c, 2 ≤ value.length → value.getLast? = some c → 'A'.toNat ≤ c.toNat →
        c.toNat ≤ 'Z'.toNat → idx = c.toNat - 'A'.toNat ∧ part = value.dropLast.dropLast) ∧
      ((value.length < 2 ∨
          ∀ c, value.getLast? = some c → ¬ ('A'.toNat ≤ c.toNat ∧ c.toNat ≤ 'Z'.toNat)) →
        idx = 0 ∧ part = value) ∧
      ¬ (toSizeT (idx : Int) > o.output_pool_.length) ∧
      (∃ b, o.output_pool_[toSizeT (idx : Int)]? = some b) ∧
      ∃ res, o.WriteToOutput createOk openOk writeOk key value = .ok res ∧
        res.outlet.multiplex_ = true ∧ res.outlet.textoutput_ = o.textoutput_ ∧
        res.outlet.output_pool_.length = 26 ∧
        ∀ rec, res.record = some rec →
          rec = ⟨idx, key, if o.textoutput_ then part else key ++ [Char.ofNat 9] ++ part⟩ := by
  have hA : 'A'.toNat = 65 := rfl
  have hZ : 'Z'.toNat = 90 := rfl
  by_cases hup : 2 ≤ value.length ∧
      ∃ c, value.getLast? = some c ∧ 'A'.toNat ≤ c.toNat ∧ c.toNat ≤ 'Z'.toNat
  · obtain ⟨h2, c, hc, hcA, hcZ⟩ := hup
    have hsel := ResultOutlet.selectOutput_upper o hm value c h2 hc hcA hcZ
    have hidx : c.toNat - 'A'.toNat < 26 := by omega
    obtain ⟨h1, h3, res, hres, hmx, htx, hl, hrec⟩ :=
      ResultOutlet.writeToOutput_at o createOk openOk writeOk key value _ _
        (by rw [hlen]; exact hidx) hlen hsel
    refine ⟨_, _, hidx, hsel, ?_, ?_, h1, h3, res, hres, by rw [hmx, hm], htx, hl, hrec⟩
    · intro c' _ hc' _ _
      rw [hc] at hc'
      simp only [Option.some.injEq] at hc'
      rw [hc']
      exact ⟨rfl, rfl⟩
    · rintro (hlt | hno)
      · omega
      · exact absurd ⟨hcA, hcZ⟩ (hno c hc)
  · have hplain : value.length < 2 ∨
        ∀ c, value.getLast? = some c → ¬ ('A'.toNat ≤ c.toNat ∧ c.toNat ≤ 'Z'.toNat) := by
      by_cases h2 : 2 ≤ value.length
      · exact Or.inr fun c hc hAZ => hup ⟨h2, c, hc, hAZ⟩
      · exact Or.inl (by omega)
    have hsel := ResultOutlet.selectOutput_plain o value hplain
    obtain ⟨h1, h3, res, hres, hmx, htx, hl, hrec⟩ :=
      ResultOutlet.writeToOutput_at o createOk openOk writeOk key value 0 value
        (by rw [hlen]; norm_num) hlen hsel
    refine ⟨0, value, by norm_num, hsel, ?_, fun _ => ⟨rfl, rfl⟩, h1, h3, res, hres,
      by rw [hmx, hm], htx, hl, hrec⟩
    intro c h2 hc hcA hcZ
    exact absurd ⟨h2, c, hc, hcA, hcZ⟩ hup

namespace ResultOutlet

theorem length_resize (pool : List Bool) (n : Nat) : (resize pool n).length = n := by
  simp only [resize, List.length_append, List.length_take, List.length_replicate]
  omega

/-- The set-up of `Collect` for the format `multiple` always succeeds and gives
multiplex mode, no text output and a pool of 26 entries. -/
theorem collectSetup_multiple (o0 : ResultOutlet) (createOk openOk : Bool) :
    ∃ o, collectSetup o0 "multiple" createOk openOk = some o ∧ o.multiplex_ = true ∧
      o.textoutput_ = false ∧ o.output_pool_.length = 26 := by
  refine ⟨{ output_pool_ := resize o0.output_pool_ 26, multiplex_ := true,
            textoutput_ := false }, ?_, rfl, rfl, length_resize _ _⟩
  simp [collectSetup, PrepareOutputFiles]

/-- An outlet that the set-up of `Collect` leaves in multiplex mode was set up
for the format `multiple`, has no text output and a pool of 26 entries. -/
theorem collectSetup_multiplex {o0 o : ResultOutlet} {format : String} {createOk openOk : Bool}
    (h : collectSetup o0 format createOk openOk = some o) (hm : o.multiplex_ = true) :
    format = "multiple" ∧ o.textoutput_ = false ∧ o.output_pool_.length = 26 := by
  by_cases hf : format = "multiple"
  · subst hf
    obtain ⟨o', ho', -, ht, hl⟩ := collectSetup_multiple o0 createOk openOk
    rw [ho'] at h
    simp only [Option.some.injEq] at h
    subst h
    exact ⟨rfl, ht, hl⟩
  · exfalso
    unfold collectSetup PrepareOutputFiles at h
    simp only [ne_eq, hf, not_false_eq_true, if_true] at h
    split at h
    · simp at h
    · rename_i o1 heq
      simp only [Option.some.injEq] at h
      subst h
      simp only at hm
      split at heq
      · split at heq
        · simp at heq
        · split at heq
          · simp at heq
          · simp only [Prod.mk.injEq, true_and] at heq
            subst heq
            simp at hm
      · simp at heq

/-- `WriteToOutput` keeps the mode, the text flag and the size of the pool. -/
theorem writeToOutput_keeps {o : ResultOutlet} {createOk openOk writeOk : Bool}
    {key value : List Char} {res : WriteResult}
    (h : o.WriteToOutput createOk openOk writeOk key value = .ok res) :
    res.outlet.multiplex_ = o.multiplex_ ∧ res.outlet.textoutput_ = o.textoutput_ ∧
      res.outlet.output_pool_.length = o.output_pool_.length := by
  unfold WriteToOutput GetOutputFile at h
  simp only at h
  split at h
  · simp at h
  · rename_i o1 heq
    simp only [Except.ok.injEq] at h
    subst h
    split at heq
    · simp only [Except.ok.injEq, Prod.mk.injEq] at heq
      rw [← heq.2]
      exact ⟨rfl, rfl, rfl⟩
    · split at heq
      · simp at heq
      · simp at heq
      · split at heq
        · simp only [Except.ok.injEq, Prod.mk.injEq] at heq
          rw [← heq.2]
          exact ⟨rfl, rfl, rfl⟩
        · split at heq
          · simp only [Except.ok.injEq, Prod.mk.injEq] at heq
            rw [← heq.2]
            exact ⟨rfl, rfl, rfl⟩
          · simp at heq
  · rename_i fp o1 heq
    simp only [Except.ok.injEq] at h
    subst h
    split at heq
    · simp at heq
    · split at heq
      · simp at heq
      · simp only [Except.ok.injEq, Prod.mk.injEq] at heq
        rw [← heq.2]
        exact ⟨rfl, rfl, rfl⟩
      · split at heq
        · simp at heq
        · split at heq
          · simp at heq
          · simp only [Except.ok.injEq, Prod.mk.injEq] at heq
            rw [← heq.2]
            exact ⟨rfl, rfl, by simp⟩

/-- Every outlet `Collect` works with in multiplex mode was set up for the
format `multiple`, has no text output and a pool of 26 entries. -/
theorem Collecting.multiplex {format : String} {o : ResultOutlet} (h : Collecting format o)
    (hm : o.multiplex_ = true) :
    format = "multiple" ∧ o.textoutput_ = false ∧ o.output_pool_.length = 26 := by
  induction h with
  | setup hs => exact collectSetup_multiplex hs hm
  | write _ hw ih =>
    obtain ⟨h1, h2, h3⟩ := writeToOutput_keeps hw
    obtain ⟨hf, ht, hl⟩ := ih (by rw [← h1]; exact hm)
    exact ⟨hf, by rw [h2]; exact ht, by rw [h3]; exact hl⟩

end ResultOutlet

/-- C19, amended: in multiplex mode (`multiplex_` set, a pool of 26 entries),
for every key and value `WriteToOutput` selects an index below 26: when the
value has length `≥ 2` and its last character `c` is in `'A'..'Z'` the index is
`c - 'A'` and the selected value is the input without its last two characters,
otherwise the index is 0 and the selected value is the input. `GetOutputFile`
then does not take its out-of-range branch and its pool lookup is in range, the
call does not fault and keeps the mode and the pool size, and a record that is
written goes to the file at that index with, as its value, the selected value
when `textoutput_` is set and the key, a tab and the selected value when it is
not. The latter is always the case in the multiplex mode of `Collect`: every
outlet `Collect` works with in multiplex mode was set up for the format
`multiple`, has `textoutput_` unset and a pool of 26 entries, so there the
written value is the key, a tab and the selected value; and the set-up for the
format `multiple` always gives such an outlet. -/
theorem C19_multiplex_index_in_range (o : ResultOutlet) (hm : o.multiplex_ = true)
    (hlen : o.output_pool_.length = 26) (createOk openOk writeOk : Bool)
    (key value : List Char) :
    (∃ (idx : Nat) (part : List Char), idx < 26 ∧
      ResultOutlet.selectOutput o value = ((idx : Int), part) ∧
      (∀ c, 2 ≤ value.length → value.getLast? = some c → 'A'.toNat ≤ c.toNat →
        c.toNat ≤ 'Z'.toNat → idx = c.toNat - 'A'.toNat ∧ part = value.dropLast.dropLast) ∧
      ((value.length < 2 ∨
          ∀ c, value.getLast? = some c → ¬ ('A'.toNat ≤ c.toNat ∧ c.toNat ≤ 'Z'.toNat)) →
        idx = 0 ∧ part = value) ∧
      ¬ (toSizeT (idx : Int) > o.output_pool_.length) ∧
      (∃ b, o.output_pool_[toSizeT (idx : Int)]? = some b) ∧
      ∃ res, o.WriteToOutput createOk openOk writeOk key value = .ok res ∧
        res.outlet.multiplex_ = true ∧ res.outlet.textoutput_ = o.textoutput_ ∧
        res.outlet.output_pool_.length = 26 ∧
        (∀ rec, res.record = some rec →
          rec = ⟨idx, key, if o.textoutput_ then part else key ++ [Char.ofNat 9] ++ part⟩) ∧
        (∀ format, ResultOutlet.Collecting format o →
          ResultOutlet.Collecting format res.outlet ∧
          ∀ rec, res.record = some rec → rec = ⟨idx, key, key ++ [Char.ofNat 9] ++ part⟩)) ∧
    (∀ (format : String) (o' : ResultOutlet), ResultOutlet.Collecting format o' →
      o'.multiplex_ = true →
        format = "multiple" ∧ o'.textoutput_ = false ∧ o'.output_pool_.length = 26) ∧
    (∀ (o0 : ResultOutlet) (c p : Bool),
      ∃ o', ResultOutlet.collectSetup o0 "multiple" c p = some o' ∧ o'.multiplex_ = true ∧
        ResultOutlet.Collecting "multiple" o') := by
  refine ⟨?_, fun format o' h hm' => h.multiplex hm', ?_⟩
  · obtain ⟨idx, part, h1, h2, h3, h4, h5, h6, res, hres, h7, h8, h9, hrec⟩ :=
      ResultOutlet.multiplex_write o hm hlen createOk openOk writeOk key value
    refine ⟨idx, part, h1, h2, h3, h4, h5, h6, res, hres, h7, h8, h9, hrec, ?_⟩
    intro format hcol
    refine ⟨ResultOutlet.Collecting.write hcol hres, ?_⟩
    intro rec hr
    have ht := (hcol.multiplex hm).2.1
    have := hrec rec hr
    rw [ht] at this
    simpa using this
  · intro o0 c p
    obtain ⟨o', ho', hm', -, -⟩ := ResultOutlet.collectSetup_multiple o0 c p
    exact ⟨o', ho', hm', ResultOutlet.Collecting.setup ho'⟩

/-- C19 amended, on the outlet set up for the format `multiple`, key `k`, value
`xyZ`: the index is 25, the selected value `x`, and the record written to file
25 has the value `k<TAB>x`. -/
theorem C19_multiplex_index_in_range_witness :
    ResultOutlet.Collecting "multiple" ResultOutlet.multiple ∧
    ((∃ (idx : Nat) (part : List Char), idx < 26 ∧
      ResultOutlet.selectOutput ResultOutlet.multiple ['x', 'y', 'Z'] = ((idx : Int), part) ∧
      (∀ c, 2 ≤ (['x', 'y', 'Z'] : List Char).length →
        (['x', 'y', 'Z'] : List Char).getLast? = some c → 'A'.toNat ≤ c.toNat →
        c.toNat ≤ 'Z'.toNat →
          idx = c.toNat - 'A'.toNat ∧ part = (['x', 'y', 'Z'] : List Char).dropLast.dropLast) ∧
      (((['x', 'y', 'Z'] : List Char).length < 2 ∨
          ∀ c, (['x', 'y', 'Z'] : List Char).getLast? = some c →
            ¬ ('A'.toNat ≤ c.toNat ∧ c.toNat ≤ 'Z'.toNat)) →
        idx = 0 ∧ part = ['x', 'y', 'Z']) ∧
      ¬ (toSizeT (idx : Int) > ResultOutlet.multiple.output_pool_.length) ∧
      (∃ b, ResultOutlet.multiple.output_pool_[toSizeT (idx : Int)]? = some b) ∧
      ∃ res, ResultOutlet.multiple.WriteToOutput true true true ['k'] ['x', 'y', 'Z'] = .ok res ∧
        res.outlet.multiplex_ = true ∧
        res.outlet.textoutput_ = ResultOutlet.multiple.textoutput_ ∧
        res.outlet.output_pool_.length = 26 ∧
        (∀ rec, res.record = some rec →
          rec = ⟨idx, ['k'],
            if ResultOutlet.multiple.textoutput_ then part
            else ['k'] ++ [Char.ofNat 9] ++ part⟩) ∧
        (∀ format, ResultOutlet.Collecting format ResultOutlet.multiple →
          ResultOutlet.Collecting format res.outlet ∧
          ∀ rec, res.record = some rec → rec = ⟨idx, ['k'], ['k'] ++ [Char.ofNat 9] ++ part⟩)) ∧
    (∀ (format : String) (o' : ResultOutlet), ResultOutlet.Collecting format o' →
      o'.multiplex_ = true →
        format = "multiple" ∧ o'.textoutput_ = false ∧ o'.output_pool_.length = 26) ∧
    (∀ (o0 : ResultOutlet) (c p : Bool),
      ∃ o', ResultOutlet.collectSetup o0 "multiple" c p = some o' ∧ o'.multiplex_ = true ∧
        ResultOutlet.Collecting "multiple" o')) ∧
    (ResultOutlet.multiple.WriteToOutput true true true ['k'] ['x', 'y', 'Z']).map
      (fun r => r.record) = .ok (some ⟨25, ['k'], ['k', Char.ofNat 9, 'x']⟩) :=
  ⟨ResultOutlet.Collecting.setup
      (show ResultOutlet.collectSetup ⟨[], false, true⟩ "multiple" true true =
        some ResultOutlet.multiple from by decide),
    C19_multiplex_index_in_range ResultOutlet.multiple rfl rfl true true true ['k']
      ['x', 'y', 'Z'],
    rfl⟩

end Shuttle
